import Mathlib

/-!
Verification development for the Sadeed Knowledge Weaver document pipeline.

The TypeScript source is shallowly embedded over `List Char`:
strings are lists of Unicode scalar values, JavaScript string lengths are
modelled by `jsLen` (UTF-16 code units), ECMAScript `String.prototype.split`
with a zero-width lookahead regex is modelled by `lookSplit`, `split` with a
consuming separator regex by `sepSplit`, `String.prototype.trim` by `trimWS`,
and `String.prototype.includes` by `hasSub`.  The SHA-256 digest used for
deduplication comes from the Node `crypto` library (not repository code), so
it is a parameter `hashFn` of the embedded pipeline: all deduplication
theorems hold for every choice of digest function.
-/

/-- ECMAScript whitespace (`\s` character class and the set removed by
`String.prototype.trim`): tab, LF, VT, FF, CR, space, NBSP, Ogham space,
the U+2000..U+200A range, LS, PS, NNBSP, MMSP, ideographic space, BOM. -/
def isJsWS (c : Char) : Bool :=
  let n := c.toNat
  n == 9 || n == 10 || n == 11 || n == 12 || n == 13 || n == 32 ||
  n == 160 || n == 0x1680 || (0x2000 ≤ n && n ≤ 0x200a) ||
  n == 0x2028 || n == 0x2029 || n == 0x202f || n == 0x205f ||
  n == 0x3000 || n == 0xfeff

/-- ASCII digit (JavaScript `\d`). -/
def isLatinDigit (c : Char) : Bool := 48 ≤ c.toNat && c.toNat ≤ 57

/-- Arabic-Indic digit (the `٠-٩` range). -/
def isArDigit (c : Char) : Bool := 0x660 ≤ c.toNat && c.toNat ≤ 0x669

/-- The character class `[٠-٩0-9]` used by the article-number regexes. -/
def isAnyDigit (c : Char) : Bool := isLatinDigit c || isArDigit c

/-- JavaScript string length: UTF-16 code units (astral characters count 2). -/
def jsLen (l : List Char) : Nat :=
  l.foldl (fun n c => n + (if c.toNat < 0x10000 then 1 else 2)) 0

/-- `pat` is a prefix of `s` (character-wise). -/
def hasPre : List Char → List Char → Bool
  | [], _ => true
  | _ :: _, [] => false
  | p :: ps, c :: cs => p == c && hasPre ps cs

/-- `pat` occurs as a contiguous substring of `s`
(JavaScript `String.prototype.includes`). -/
def hasSub (pat : List Char) : List Char → Bool
  | [] => hasPre pat []
  | c :: cs => hasPre pat (c :: cs) || hasSub pat cs

/-- Remove trailing JS whitespace (the right half of `String.trim`). -/
def trimEnd : List Char → List Char
  | [] => []
  | c :: rest =>
    match trimEnd rest with
    | [] => if isJsWS c then [] else [c]
    | out => c :: out

/-- JavaScript `String.prototype.trim`. -/
def trimWS (l : List Char) : List Char := trimEnd (l.dropWhile isJsWS)

/-- Abbreviation for string literals as character lists. -/
def lit (s : String) : List Char := s.toList

/-! ## `IntelligentDocumentProcessor.cleanContent`

The source is
`content.replace(/\r\n/g, '\n').replace(/[ \t]+/g, ' ')
        .replace(/\n{3,}/g, '\n\n').trim()`.
Each global regex replace is embedded as a left-to-right scan. -/

/-- `replace(/\r\n/g, '\n')`: left-to-right, non-overlapping. -/
def replCRLF : List Char → List Char
  | [] => []
  | [c] => [c]
  | c1 :: c2 :: rest =>
    if c1 = '\r' ∧ c2 = '\n' then '\n' :: replCRLF rest
    else c1 :: replCRLF (c2 :: rest)

/-- Space or tab (the `[ \t]` class). -/
def isSpTab (c : Char) : Bool := c == ' ' || c == '\t'

/-- Scanner for `replace(/[ \t]+/g, ' ')`: the flag records whether the run
currently being read has already emitted its single space. -/
def collapseSpGo : Bool → List Char → List Char
  | _, [] => []
  | inRun, c :: rest =>
    if isSpTab c then
      if inRun then collapseSpGo true rest else ' ' :: collapseSpGo true rest
    else c :: collapseSpGo false rest

/-- `replace(/[ \t]+/g, ' ')`: each maximal run of spaces/tabs becomes one space. -/
def collapseSp (l : List Char) : List Char := collapseSpGo false l

/-- Scanner for `replace(/\n{3,}/g, '\n\n')`: `n` counts the newlines already
read in the current run; a greedy match keeps the first two of a run of ≥ 3. -/
def collapseNlGo : Nat → List Char → List Char
  | _, [] => []
  | n, c :: rest =>
    if c = '\n' then
      if n < 2 then '\n' :: collapseNlGo (n + 1) rest
      else collapseNlGo (n + 1) rest
    else c :: collapseNlGo 0 rest

/-- `replace(/\n{3,}/g, '\n\n')`. -/
def collapseNl (l : List Char) : List Char := collapseNlGo 0 l

/-- `IntelligentDocumentProcessor.cleanContent`. -/
def cleanContent (l : List Char) : List Char :=
  trimWS (collapseNl (collapseSp (replCRLF l)))

/-! ## ECMAScript `String.prototype.split` models

`lookSplit` models `split` on a zero-width lookahead regex `(?=...)`: the
string is cut at every position `q ≥ 1` at which an alternative matches
(a zero-width match at position 0 is skipped by the `SplitMatch` algorithm,
and after a cut the matcher is not retried at the same position).
`sepSplit` models `split` on a consuming regex: `matchLen s` returns the
length of the separator match anchored at the head of `s`, if any; matched
characters are dropped, and adjacent/leading separators produce empty pieces
exactly as in ECMAScript. -/

def lookSplitGo (matchAt : List Char → Bool) : List Char → List Char → List (List Char)
  | acc, [] => [acc.reverse]
  | acc, c :: rest =>
    if matchAt (c :: rest) then acc.reverse :: lookSplitGo matchAt [c] rest
    else lookSplitGo matchAt (c :: acc) rest

def lookSplit (matchAt : List Char → Bool) : List Char → List (List Char)
  | [] => [[]]
  | c :: rest => lookSplitGo matchAt [c] rest

def sepSplitGo (matchLen : List Char → Option Nat) : Nat → List Char → List Char → List (List Char)
  | _, acc, [] => [acc.reverse]
  | Nat.succ skip, acc, _ :: rest => sepSplitGo matchLen skip acc rest
  | 0, acc, c :: rest =>
    match matchLen (c :: rest) with
    | some k => acc.reverse :: sepSplitGo matchLen (k - 1) [] rest
    | none => sepSplitGo matchLen 0 (c :: acc) rest

def sepSplit (matchLen : List Char → Option Nat) (l : List Char) : List (List Char) :=
  sepSplitGo matchLen 0 [] l

/-! ## Anchored regex matchers used by `ruleBasedChunking`

Each matcher decides whether the regex alternative matches at the head of the
given suffix.  Greedy `\s*`/`\s+`/digit runs are modelled by taking the
maximal run; this is exact here because every character required after such a
run is never itself a member of the run's class, so regex backtracking can
never succeed with a shorter run. -/

def wsStar (s : List Char) : List Char := s.dropWhile isJsWS

def wsPlus : List Char → Option (List Char)
  | [] => none
  | c :: r => if isJsWS c then some (wsStar r) else none

def afterLit (pat s : List Char) : Option (List Char) :=
  if hasPre pat s then some (s.drop pat.length) else none

def headIs (c : Char) : List Char → Bool
  | x :: _ => x == c
  | [] => false

def headDigit (p : Char → Bool) : List Char → Bool
  | x :: _ => p x
  | [] => false

def madaLit : List Char := lit "المادة"

/-- `المادة\s*\(\s*[٠-٩0-9]+\s*\)` anchored at the head. -/
def madaParenAt (s : List Char) : Bool :=
  match afterLit madaLit s with
  | none => false
  | some r =>
    match wsStar r with
    | '(' :: r2 =>
      let r3 := wsStar r2
      let ds := r3.takeWhile isAnyDigit
      !ds.isEmpty && headIs ')' (wsStar (r3.drop ds.length))
    | _ => false

/-- `pat` followed by `\s+` followed by at least one digit of class `digitP`. -/
def litWsNumAt (pat : List Char) (digitP : Char → Bool) (s : List Char) : Bool :=
  match afterLit pat s with
  | none => false
  | some r =>
    match wsPlus r with
    | some r2 => headDigit digitP r2
    | none => false

/-- `المادة\s+[٠-٩0-9]+` anchored at the head. -/
def madaNumAt (s : List Char) : Bool := litWsNumAt madaLit isAnyDigit s

/-- `المادة\s+الأولى|المادة\s+الثانية|المادة\s+الثالثة` anchored at the head. -/
def madaOrdAt (s : List Char) : Bool :=
  match afterLit madaLit s with
  | none => false
  | some r =>
    match wsPlus r with
    | some r2 => hasPre (lit "الأولى") r2 || hasPre (lit "الثانية") r2 || hasPre (lit "الثالثة") r2
    | none => false

/-- Lookahead of the `laws` split regex. -/
def lawsMatchAt (s : List Char) : Bool := madaParenAt s || madaNumAt s || madaOrdAt s

/-- Lookahead of the decree-side split regex (`royal_decrees`). -/
def decreeArtAt (s : List Char) : Bool := madaNumAt s || madaOrdAt s

/-- Lookahead of the attached-instrument split regex (`royal_decrees`). -/
def agreementArtAt (s : List Char) : Bool := madaParenAt s || madaNumAt s

/-- `\d+\/\d+` anchored at the head (ASCII digits only, as JS `\d`). -/
def numSlashNumAt (s : List Char) : Bool :=
  let ds := s.takeWhile isLatinDigit
  !ds.isEmpty &&
    (match s.drop ds.length with
     | '/' :: r => headDigit isLatinDigit r
     | _ => false)

/-- `السؤال\s*:` anchored at the head. -/
def suaalColonAt (s : List Char) : Bool :=
  match afterLit (lit "السؤال") s with
  | some r => headIs ':' (wsStar r)
  | none => false

/-- Lookahead of the first `fatwas` split regex. -/
def fatwaMatchAt (s : List Char) : Bool :=
  hasPre (lit "فتوى رقم") s || numSlashNumAt s || suaalColonAt s

/-- Lookahead of the `fatwas` section split regex. -/
def fatwaSectionAt (s : List Char) : Bool :=
  hasPre (lit "السؤال") s || hasPre (lit "الجواب") s || hasPre (lit "الأساس القانوني") s

/-- Lookahead of the judicial split regex `مبدأ\s+\d+|المبدأ\s+\d+`. -/
def principleMatchAt (s : List Char) : Bool :=
  litWsNumAt (lit "مبدأ") isLatinDigit s || litWsNumAt (lit "المبدأ") isLatinDigit s

/-- Lookahead of the `ministerial_decisions`/`regulations` split regex. -/
def decisionMatchAt (s : List Char) : Bool :=
  madaParenAt s || madaNumAt s || hasPre (lit "القرار رقم") s ||
  litWsNumAt (lit "البند") isAnyDigit s

/-- A run of digits of class `digitP` followed by `\s*` and `-` or `)`. -/
def digitRunDashAt (digitP : Char → Bool) (s : List Char) : Bool :=
  let ds := s.takeWhile digitP
  !ds.isEmpty &&
    (match wsStar (s.drop ds.length) with
     | c :: _ => c == '-' || c == ')'
     | [] => false)

/-- Lookahead of the long-article sub-item split regex. -/
def subItemAt (s : List Char) : Bool :=
  digitRunDashAt isLatinDigit s || digitRunDashAt isArDigit s

/-- Lookahead of the `royal_orders` split regex. -/
def orderMatchAt (s : List Char) : Bool :=
  hasPre (lit "نأمر") s || hasPre (lit "يُطلب") s || hasPre (lit "التوجيه") s ||
  hasPre (lit "الأمر") s

/-- One alternative of the attached-instrument search regex
`/اتفاقيــــة|اتفاقية\s+تعــــاون|اتفاقية\s+تعاون|قانون\s+|نظام\s+/i`
anchored at the head. -/
def decreeMarkerAt (s : List Char) : Bool :=
  hasPre (lit "اتفاقيــــة") s ||
  (match afterLit (lit "اتفاقية") s with
   | some r =>
     match wsPlus r with
     | some r2 => hasPre (lit "تعــــاون") r2 || hasPre (lit "تعاون") r2
     | none => false
   | none => false) ||
  (match afterLit (lit "قانون") s with
   | some r => (wsPlus r).isSome
   | none => false) ||
  (match afterLit (lit "نظام") s with
   | some r => (wsPlus r).isSome
   | none => false)

def searchIdxGo (matchAt : List Char → Bool) : Nat → List Char → Option Nat
  | _, [] => none
  | i, c :: r => if matchAt (c :: r) then some i else searchIdxGo matchAt (i + 1) r

/-- `text.search(...)` for the attached-instrument marker: index of the first
position at which an alternative matches (`none` models `-1`). -/
def searchAgreement (l : List Char) : Option Nat := searchIdxGo decreeMarkerAt 0 l

/-- Separator `/[.!؟]\s+/` anchored at the head: a sentence terminator
followed by a maximal nonempty whitespace run. -/
def sentMatchLen : List Char → Option Nat
  | [] => none
  | c :: r =>
    if c == '.' || c == '!' || c == '؟' then
      let w := (r.takeWhile isJsWS).length
      if 0 < w then some (1 + w) else none
    else none

/-- Index of the last occurrence of `c` in the list. -/
def lastIdxOf (c : Char) : List Char → Option Nat
  | [] => none
  | x :: r =>
    match lastIdxOf c r with
    | some j => some (j + 1)
    | none => if x == c then some 0 else none

/-- Separator `/\n\s*\n/` anchored at the head: a newline, then the greedy
`\s*` backtracks to the last newline inside the whitespace run. -/
def paraMatchLen : List Char → Option Nat
  | [] => none
  | c :: r =>
    if c = '\n' then
      match lastIdxOf '\n' (r.takeWhile isJsWS) with
      | some j => some (j + 2)
      | none => none
    else none

/-! ## `ruleBasedChunking` (src/ai/flows/intelligent-chunking.ts)

Each `case` of the `switch` becomes a function producing the list of chunks
pushed by that branch, in push order.  `forEach` loops that push
conditionally become `filterMap`/`foldl`; the stateful buffer loops
(fatwa reconstruction, paragraph packing, the emergency sentence packer)
become explicit accumulator recursions. -/

/-- The separator `'\n\n'` inserted between accumulated sections. -/
def nlnl : List Char := ['\n', '\n']

/-- The final filter `chunk.length > 30 && chunk.trim().length > 0`. -/
def validChunk (c : List Char) : Bool := decide (30 < jsLen c) && !(trimWS c).isEmpty

/-- `case 'laws'`: split before article markers, keep a fragment if it
contains `المادة` or exceeds 200 characters. -/
def lawsChunks (text : List Char) : List (List Char) :=
  (lookSplit lawsMatchAt text).filterMap fun article =>
    let ca := trimWS article
    if !ca.isEmpty && (hasSub madaLit ca || decide (200 < jsLen ca)) then some ca else none

/-- Stateful fatwa reconstruction: flush on `السؤال`, append `الجواب` /
`الأساس القانوني` sections to the open buffer, drop other sections. -/
def fatwaGo : List (List Char) → List Char → List (List Char) → List (List Char)
  | chunks, cur, [] => if cur.isEmpty then chunks else chunks ++ [trimWS cur]
  | chunks, cur, s :: rest =>
    let cs := trimWS s
    if hasPre (lit "السؤال") cs then
      fatwaGo (if cur.isEmpty then chunks else chunks ++ [trimWS cur]) cs rest
    else if hasPre (lit "الجواب") cs || hasPre (lit "الأساس القانوني") cs then
      fatwaGo chunks (cur ++ nlnl ++ cs) rest
    else fatwaGo chunks cur rest

/-- `case 'fatwas'`: number/question split first (keep fragments > 100 chars),
falling back to the stateful question/answer reconstruction. -/
def fatwaChunks (text : List Char) : List (List Char) :=
  let first := (lookSplit fatwaMatchAt text).filterMap fun f =>
    let cf := trimWS f
    if !cf.isEmpty && decide (100 < jsLen cf) then some cf else none
  if first.isEmpty then fatwaGo [] [] (lookSplit fatwaSectionAt text) else first

/-- Decree-side processing of `case 'royal_decrees'`: preamble kept if
longer than 100 characters, articles kept if they contain `المادة`. -/
def decreePhase (m : List Char) : List (List Char) :=
  let arts := lookSplit decreeArtAt m
  let pre := trimWS (arts.headD [])
  (if !pre.isEmpty && decide (100 < jsLen pre) then [pre] else []) ++
  arts.tail.filterMap fun a =>
    let ca := trimWS a
    if !ca.isEmpty && hasSub madaLit ca then some ca else none

/-- Attached-instrument processing of `case 'royal_decrees'`: only when the
instrument text exceeds 100 characters; preamble kept if > 200 characters,
articles kept if they contain `المادة` or exceed 100 characters. -/
def agreementPhase (g : List Char) : List (List Char) :=
  if !g.isEmpty && decide (100 < jsLen g) then
    let arts := lookSplit agreementArtAt g
    let pre := trimWS (arts.headD [])
    (if !pre.isEmpty && decide (200 < jsLen pre) then [pre] else []) ++
    arts.tail.filterMap fun a =>
      let ca := trimWS a
      if !ca.isEmpty && (hasSub madaLit ca || decide (100 < jsLen ca)) then some ca else none
  else []

/-- The `agreementStart > 0` split of a royal decree into the decree proper
and the attached instrument (`('', text)` when no marker or marker at 0,
matching `substring` + the falsy check on the empty agreement text). -/
def royalSides (text : List Char) : List Char × List Char :=
  match searchAgreement text with
  | some p => if 0 < p then (trimWS (text.take p), trimWS (text.drop p)) else (text, [])
  | none => (text, [])

/-- `case 'royal_decrees'`: decree-side chunks, then instrument-side chunks. -/
def royalChunks (text : List Char) : List (List Char) :=
  decreePhase (royalSides text).1 ++ agreementPhase (royalSides text).2

/-- Paragraph packing: accumulate blank-line-delimited paragraphs, flushing
when the next paragraph would push the buffer past `limit` characters. -/
def packGo (limit : Nat) : List (List Char) → List Char → List (List Char) → List (List Char)
  | chunks, cur, [] => if cur.isEmpty then chunks else chunks ++ [trimWS cur]
  | chunks, cur, s :: rest =>
    let cp := trimWS s
    if cp.isEmpty then packGo limit chunks cur rest
    else if decide (limit < jsLen cur + jsLen cp) then
      packGo limit (if cur.isEmpty then chunks else chunks ++ [trimWS cur]) cp rest
    else packGo limit chunks (cur ++ (if cur.isEmpty then [] else nlnl) ++ cp) rest

def packParagraphs (limit : Nat) (text : List Char) : List (List Char) :=
  packGo limit [] [] (sepSplit paraMatchLen text)

/-- `case 'judicial_civil'/'judicial_criminal'/'judicial_principles'`:
principle split (keep fragments containing `مبدأ` or > 200 chars), falling
back to 1500-character paragraph packing. -/
def principleChunks (text : List Char) : List (List Char) :=
  let ps := (lookSplit principleMatchAt text).filterMap fun pr =>
    let cp := trimWS pr
    if !cp.isEmpty && (hasSub (lit "مبدأ") cp || decide (200 < jsLen cp)) then some cp else none
  if ps.isEmpty then packParagraphs 1500 text else ps

/-- Sub-splitting of over-2000-character decision articles on enumerated items. -/
def subItemChunks (ca : List Char) : List (List Char) :=
  (lookSplit subItemAt ca).filterMap fun sub =>
    let cs := trimWS sub
    if !cs.isEmpty && decide (100 < jsLen cs) then some cs else none

/-- `case 'ministerial_decisions'/'regulations'`. -/
def decisionChunks (text : List Char) : List (List Char) :=
  (lookSplit decisionMatchAt text).foldl (fun acc article =>
    let ca := trimWS article
    if !ca.isEmpty && decide (50 < jsLen ca) then
      if decide (2000 < jsLen ca) then acc ++ subItemChunks ca else acc ++ [ca]
    else acc) []

/-- `case 'royal_orders'`. -/
def orderChunks (text : List Char) : List (List Char) :=
  (lookSplit orderMatchAt text).filterMap fun o =>
    let co := trimWS o
    if !co.isEmpty && decide (100 < jsLen co) then some co else none

/-- The emergency sentence packer (800-character buffers, `'. '` joins,
a trailing `'.'` appended to every flushed chunk). -/
def emGo : List (List Char) → List Char → List (List Char) → List (List Char)
  | chunks, cur, [] => if cur.isEmpty then chunks else chunks ++ [trimWS cur ++ ['.']]
  | chunks, cur, s :: rest =>
    let cs := trimWS s
    if cs.isEmpty then emGo chunks cur rest
    else if decide (800 < jsLen cur + jsLen cs) then
      emGo (if cur.isEmpty then chunks else chunks ++ [trimWS cur ++ ['.']]) cs rest
    else emGo chunks (cur ++ (if cur.isEmpty then [] else ['.', ' ']) ++ cs) rest

/-- Universal emergency fallback: split on sentence terminators and pack. -/
def emergencyChunks (text : List Char) : List (List Char) :=
  emGo [] [] (sepSplit sentMatchLen text)

/-- The legal-document categories (`DocumentTypeSchema`). -/
inductive DocumentType where
  | laws | royal_decrees | regulations | ministerial_decisions | royal_orders
  | fatwas | judicial_principles | judicial_criminal | judicial_civil
  | indexes | templates | others
deriving DecidableEq

/-- The `switch (documentType)` dispatch (the `default` branch covers
`indexes`, `templates` and `others`). -/
def categoryChunks : DocumentType → List Char → List (List Char)
  | .laws, t => lawsChunks t
  | .fatwas, t => fatwaChunks t
  | .royal_decrees, t => royalChunks t
  | .judicial_civil, t => principleChunks t
  | .judicial_criminal, t => principleChunks t
  | .judicial_principles, t => principleChunks t
  | .ministerial_decisions, t => decisionChunks t
  | .regulations, t => decisionChunks t
  | .royal_orders, t => orderChunks t
  | .indexes, t => packParagraphs 1000 t
  | .templates, t => packParagraphs 1000 t
  | .others, t => packParagraphs 1000 t

/-- `ruleBasedChunking(documentText, documentType)`: trim, dispatch on the
category, run the emergency fallback if no chunks were produced, then apply
the 30-character post-filter. -/
def ruleBasedChunking (input : List Char) (cat : DocumentType) : List (List Char) :=
  let text := trimWS input
  if text.isEmpty then []
  else
    let chunks := categoryChunks cat text
    let chunks2 := if chunks.isEmpty && !text.isEmpty then emergencyChunks text else chunks
    chunks2.filter validChunk

/-! ## `DocumentClassifier` (document-classification.ts)

`CategoryProfile` embeds one entry of `DocumentClassificationPatterns`
(the TypeScript field `structure` is named `structural` here because
`structure` is a Lean keyword).  Scores are kept in half-points (`score2` is
twice the JavaScript score) so that the 1.0 / 0.5 weights stay in `Nat`. -/

structure CategoryProfile where
  identifiers : List (List Char)
  structural : List (List Char)
  namespaceTag : List Char
  requiredFields : List (List Char)
deriving DecidableEq

def lawsProfile : CategoryProfile where
  identifiers := [lit "قانون", lit "مادة", lit "باب", lit "فصل", lit "قانون العمل", lit "قانون الجزاء"]
  structural := [lit "المادة", lit "الباب", lit "الفصل", lit "قانون رقم"]
  namespaceTag := lit "laws"
  requiredFields := [lit "law_title", lit "article_number", lit "text"]

def royalDecreesProfile : CategoryProfile where
  identifiers := [lit "مرسوم سلطاني", lit "نحن قابوس", lit "نحن هيثم", lit "سلطان عمان", lit "صدر في"]
  structural := [lit "مرسوم سلطاني رقم", lit "نحن", lit "صدر في"]
  namespaceTag := lit "decrees"
  requiredFields := [lit "decree_number", lit "title", lit "date"]

def regulationsProfile : CategoryProfile where
  identifiers := [lit "اللائحة التنفيذية", lit "لائحة", lit "تنظيم", lit "ضوابط", lit "إجراءات"]
  structural := [lit "اللائحة التنفيذية لقانون", lit "المادة", lit "الأحكام"]
  namespaceTag := lit "regulations"
  requiredFields := [lit "regulation_title", lit "issuing_authority"]

def ministerialDecisionsProfile : CategoryProfile where
  identifiers := [lit "قرار وزاري", lit "الوزير", lit "قرار رقم", lit "وزارة"]
  structural := [lit "قرار وزاري رقم", lit "الوزير", lit "المادة"]
  namespaceTag := lit "ministerial_decisions"
  requiredFields := [lit "decision_number", lit "ministry", lit "subject"]

def royalOrdersProfile : CategoryProfile where
  identifiers := [lit "أمر سام", lit "أمر سامي", lit "توجيه سامي", lit "منح وسام", lit "تعيين"]
  structural := [lit "أمر سام بـ", lit "جلالة السلطان", lit "منح"]
  namespaceTag := lit "royal_orders"
  requiredFields := [lit "order_number", lit "subject", lit "date"]

def fatwasProfile : CategoryProfile where
  identifiers := [lit "فتوى", lit "إجابة", lit "استفسار", lit "وزارة العدل والشؤون القانونية", lit "دار الإفتاء"]
  structural := [lit "رقم الفتوى", lit "السؤال", lit "الجواب", lit "الأساس القانوني"]
  namespaceTag := lit "fatwas"
  requiredFields := [lit "fatwa_number", lit "question", lit "answer"]

def judicialPrinciplesProfile : CategoryProfile where
  identifiers := [lit "مبدأ قضائي", lit "المحكمة العليا", lit "مبدأ", lit "قضية رقم", lit "مبادئ قضائية"]
  structural := [lit "مبدأ رقم", lit "قضية رقم", lit "المحكمة العليا"]
  namespaceTag := lit "judicial_principles"
  requiredFields := [lit "principle_number", lit "case_number", lit "topic"]

def judicialCriminalProfile : CategoryProfile where
  identifiers := [lit "الدائرة الجزائية", lit "حكم جزائي", lit "جناية", lit "جنحة", lit "عقوبة"]
  structural := [lit "الدائرة الجزائية", lit "حكم رقم", lit "التهمة", lit "العقوبة"]
  namespaceTag := lit "judicial_criminal"
  requiredFields := [lit "judgment_number", lit "charge", lit "verdict"]

def judicialCivilProfile : CategoryProfile where
  identifiers := [lit "الدائرة المدنية", lit "الدائرة التجارية", lit "حكم مدني", lit "دعوى مدنية", lit "عقد"]
  structural := [lit "الدائرة المدنية", lit "حكم رقم", lit "الحكم", lit "المبدأ"]
  namespaceTag := lit "judicial_civil"
  requiredFields := [lit "judgment_number", lit "case_type", lit "verdict"]

def indexesProfile : CategoryProfile where
  identifiers := [lit "فهرس", lit "دليل", lit "كشاف", lit "تصنيف", lit "فهرس المبادئ"]
  structural := [lit "فهرس", lit "الرقم", lit "الموضوع", lit "الصفحة"]
  namespaceTag := lit "indexes"
  requiredFields := [lit "index_title", lit "year", lit "items"]

def templatesProfile : CategoryProfile where
  identifiers := [lit "نموذج", lit "صيغة", lit "استمارة", lit "توكيل", lit "عقد نموذجي"]
  structural := [lit "نموذج رقم", lit "الصيغة", lit "التوقيع"]
  namespaceTag := lit "templates"
  requiredFields := [lit "template_name", lit "template_type", lit "fields"]

def othersProfile : CategoryProfile where
  identifiers := [lit "وثيقة", lit "كتاب", lit "تقرير", lit "دراسة"]
  structural := [lit "العنوان", lit "المحتوى", lit "التاريخ"]
  namespaceTag := lit "others"
  requiredFields := [lit "title", lit "content_type"]

/-- `DocumentClassificationPatterns`, in definition (= `Object.entries`) order. -/
def profileList : List (DocumentType × CategoryProfile) :=
  [(.laws, lawsProfile), (.royal_decrees, royalDecreesProfile),
   (.regulations, regulationsProfile), (.ministerial_decisions, ministerialDecisionsProfile),
   (.royal_orders, royalOrdersProfile), (.fatwas, fatwasProfile),
   (.judicial_principles, judicialPrinciplesProfile), (.judicial_criminal, judicialCriminalProfile),
   (.judicial_civil, judicialCivilProfile), (.indexes, indexesProfile),
   (.templates, templatesProfile), (.others, othersProfile)]

/-- Twice the JavaScript score of a profile: `+1.0` per present identifier,
`+0.5` per present structure element (presence = substring test). -/
def score2 (content : List Char) (p : CategoryProfile) : Nat :=
  2 * p.identifiers.countP (fun pat => hasSub pat content) +
  p.structural.countP (fun pat => hasSub pat content)

/-- The matched-pattern list recorded for a profile (identifiers first,
then structure elements, in list order). -/
def matchedOf (content : List Char) (p : CategoryProfile) : List (List Char) :=
  p.identifiers.filter (fun pat => hasSub pat content) ++
  p.structural.filter (fun pat => hasSub pat content)

/-- One step of the best-type scan: replace the running best only on a
strictly greater score (`data.score > bestScore`). -/
def pickStep (content : List Char) (b : DocumentType × Nat × List (List Char))
    (tp : DocumentType × CategoryProfile) : DocumentType × Nat × List (List Char) :=
  let s := score2 content tp.2
  if b.2.1 < s then (tp.1, s, matchedOf content tp.2) else b

/-- Twice `maxPossibleScore`: the maximum over profiles of
`identifiers.length + 0.5 × structure.length`. -/
def maxPossible2 : Nat :=
  profileList.foldl (fun m tp => max m (2 * tp.2.identifiers.length + tp.2.structural.length)) 0

structure ClassificationResult where
  type : DocumentType
  confidence : ℚ
  matchedPatterns : List (List Char)

/-- `DocumentClassifier.classifyDocument`: the running best starts at
`('others', 0)`; `confidence = min(bestScore / maxPossibleScore, 1.0)`. -/
def classifyDocument (content : List Char) : ClassificationResult :=
  let best := profileList.foldl (pickStep content) (DocumentType.others, 0, [])
  { type := best.1
    confidence := min ((best.2.1 : ℚ) / (maxPossible2 : ℚ)) 1
    matchedPatterns := best.2.2 }

/-! ## `IntelligentDocumentProcessor.processDocument` and
`DocumentProcessingManager` (part of the orchestrator)

The dedup registry (`Set<string>` of hex digests) is a `List (List Char)`
with insertion-order `addHash`.  The digest function is the `hashFn`
parameter.  The per-type processors (`processor.process`) are repository
code whose internals none of the claims depend on; they are abstracted as
the `pipeline` parameter returning either chunks or a thrown error, so the
theorems below quantify over every possible processor behaviour.  Since the
registry is passed by reference in the source, the embedding threads it
explicitly: `processDocument` returns the registry alongside its result. -/

inductive DocError where
  | duplicate (h : List Char)
  | generic

structure ProcOut where
  classification : DocumentType
  confidence : ℚ
  chunks : List (List Char)
  contentHash : List Char

def regHas (reg : List (List Char)) (h : List Char) : Bool := reg.contains h

/-- `Set.add`: append if absent. -/
def addHash (reg : List (List Char)) (h : List Char) : List (List Char) :=
  if regHas reg h then reg else reg ++ [h]

/-- `IntelligentDocumentProcessor.processDocument`: clean, hash, duplicate
check (throw `DuplicateDocumentError` carrying the hash), classify, run the
type processor, assemble the result carrying the content hash.  The second
component is the registry as left by the call: the source only ever reads
it (`existingHashes.has`). -/
def processDocument (hashFn : List Char → List Char)
    (pipeline : List Char → Option ℚ → Except Unit (List (List Char)))
    (content : List Char) (conf : Option ℚ) (reg : List (List Char)) :
    Except DocError ProcOut × List (List Char) :=
  let cleaned := cleanContent content
  let contentHash := hashFn cleaned
  if regHas reg contentHash then (.error (.duplicate contentHash), reg)
  else
    let cres := classifyDocument cleaned
    match pipeline cleaned conf with
    | .error _ => (.error .generic, reg)
    | .ok chunks =>
      (.ok { classification := cres.type, confidence := cres.confidence,
             chunks := chunks, contentHash := contentHash }, reg)

/-- A pipeline built from per-type processors that never throw (as the
twelve processors in the source do not). -/
def totalPipe (proc : List Char → Option ℚ → List (List Char)) :
    List Char → Option ℚ → Except Unit (List (List Char)) :=
  fun c o => .ok (proc c o)

inductive JobOutcome where
  | completed (r : ProcOut)
  | dup (h : List Char)
  | failedGeneric

def JobOutcome.isCompleted : JobOutcome → Bool
  | .completed _ => true
  | _ => false

/-- The hash carried by a job outcome: the `contentHash` of a successful
result, or the hash inside a thrown `DuplicateDocumentError` message. -/
def hashCarried : JobOutcome → Option (List Char)
  | .completed r => some r.contentHash
  | .dup h => some h
  | .failedGeneric => none

/-- One `processQueue` loop body as it affects the registry: call
`processDocument`; on success `processedHashes.add(result.contentHash)`;
a thrown error (duplicate or generic) leaves the registry as the call
returned it. -/
def stepJob (hashFn : List Char → List Char)
    (pipeline : List Char → Option ℚ → Except Unit (List (List Char)))
    (reg : List (List Char)) (content : List Char) (conf : Option ℚ) :
    List (List Char) × JobOutcome :=
  match processDocument hashFn pipeline content conf reg with
  | (.ok r, regOut) => (addHash regOut r.contentHash, .completed r)
  | (.error (.duplicate h), regOut) => (regOut, .dup h)
  | (.error .generic, regOut) => (regOut, .failedGeneric)

inductive JobStatus where
  | pending | processing | completed | failed
deriving DecidableEq

structure MJob where
  content : List Char
  ocrConf : Option ℚ
  status : JobStatus

structure PStatus where
  totalJobs : Nat
  pending : Nat
  processing : Nat
  completed : Nat
  failed : Nat

/-- `DocumentProcessingManager.getStatus`: every count filters the *current
processing queue* (`this.processingQueue`); `totalJobs` adds the completed
and failed counts found there to the queue length. -/
def getStatus (queue : List MJob) : PStatus :=
  let pending := (queue.filter fun j => j.status == .pending).length
  let processing := (queue.filter fun j => j.status == .processing).length
  let completed := (queue.filter fun j => j.status == .completed).length
  let failed := (queue.filter fun j => j.status == .failed).length
  { totalJobs := queue.length + completed + failed
    pending := pending, processing := processing
    completed := completed, failed := failed }

/-- `Math.round` on the rationals (round half towards positive infinity). -/
def jsRound (x : ℚ) : Int := Int.floor (x + 1 / 2)

/-- The `percentage` computed by `updateProgress`:
`totalJobs > 0 ? Math.round(((completed + failed) / totalJobs) * 100) : 0`. -/
def progressPct (queue : List MJob) : Int :=
  let st := getStatus queue
  if 0 < st.totalJobs then jsRound (((st.completed : ℚ) + (st.failed : ℚ)) / (st.totalJobs : ℚ) * 100)
  else 0

structure RunResults where
  successCount : Nat
  dupCount : Nat
  failCount : Nat
  totalProcessed : Nat
  reports : List Int
  registry : List (List Char)

/-- `DocumentProcessingManager.processQueue`: shift the head job off the
queue, mark it processing, report progress, process it, record the outcome
(success / duplicate / generic failure), report progress again, continue.
The shifted job is no longer in `processingQueue`, so both progress reports
are computed over the remaining jobs only, exactly as in the source. -/
def processQueueGo (hashFn : List Char → List Char)
    (pipeline : List Char → Option ℚ → Except Unit (List (List Char))) :
    List MJob → List (List Char) → RunResults → RunResults
  | [], reg, acc => { acc with registry := reg }
  | j :: rest, reg, acc =>
    let r1 := progressPct rest
    match stepJob hashFn pipeline reg j.content j.ocrConf with
    | (regOut, .completed _) =>
      processQueueGo hashFn pipeline rest regOut
        { acc with successCount := acc.successCount + 1,
                   totalProcessed := acc.totalProcessed + 1,
                   reports := acc.reports ++ [r1, progressPct rest] }
    | (regOut, .dup _) =>
      processQueueGo hashFn pipeline rest regOut
        { acc with dupCount := acc.dupCount + 1,
                   totalProcessed := acc.totalProcessed + 1,
                   reports := acc.reports ++ [r1, progressPct rest] }
    | (regOut, .failedGeneric) =>
      processQueueGo hashFn pipeline rest regOut
        { acc with failCount := acc.failCount + 1,
                   totalProcessed := acc.totalProcessed + 1,
                   reports := acc.reports ++ [r1, progressPct rest] }

def emptyRun : RunResults := ⟨0, 0, 0, 0, [], []⟩

/-- A full `processQueue` run over a queue of pending jobs. -/
def processQueue (hashFn : List Char → List Char)
    (pipeline : List Char → Option ℚ → Except Unit (List (List Char)))
    (queue : List MJob) (reg : List (List Char)) : RunResults :=
  processQueueGo hashFn pipeline queue reg emptyRun

/-! ## Proof-support definitions

Normal-form predicates characterising the fixed points of the three
`cleanContent` scanners, and concrete texts used by counterexamples. -/

/-- No tab anywhere and no two adjacent space/tab characters:
the strings left unchanged by `collapseSp`. -/
def spNF : List Char → Bool
  | [] => true
  | [c] => !(c == '\t')
  | a :: b :: rest => !(a == '\t') && !(isSpTab a && isSpTab b) && spNF (b :: rest)

/-- No three consecutive newlines: the strings left unchanged by `collapseNl`. -/
def nlNF : List Char → Bool
  | a :: b :: c :: rest => !(a == '\n' && b == '\n' && c == '\n') && nlNF (b :: c :: rest)
  | _ => true

/-- Length of the leading newline run. -/
def leadNl (l : List Char) : Nat := (l.takeWhile (fun c => c == '\n')).length

/-- The list is nonempty and its last character is not JS whitespace. -/
def lastOk (l : List Char) : Bool :=
  match l.getLast? with
  | some c => !isJsWS c
  | none => false

/-- Maximum `score2` over a profile list (0 when empty, as for the scan's
initial best score). -/
def maxScoreL (content : List Char) : List (DocumentType × CategoryProfile) → Nat
  | [] => 0
  | tp :: rest => max (score2 content tp.2) (maxScoreL content rest)

/-- A royal decree whose decree side (60 letters) and instrument side
(`قانون` + 60 letters) each stay below every keep-threshold, so the
category rules produce no chunk and the emergency fallback packs the whole
text — across the marker — into a single chunk. -/
def royalSpanText : List Char := List.replicate 60 'م' ++ lit "قانون " ++ List.replicate 60 'س'

/-- A royal decree with a 120-letter decree preamble followed by an
attached-instrument marker. -/
def royalWitText : List Char := List.replicate 120 'م' ++ lit "قانون تعاون دولي"

/-- The two-article example text from the specification. -/
def lawsExampleText : List Char := lit "المادة 1: نص أ. المادة 2: نص ب."

/-! ## Registry and orchestrator theorems -/

theorem regHas_addHash (reg : List (List Char)) (h : List Char) :
    regHas (addHash reg h) h = true := by
  unfold addHash
  cases hc : regHas reg h with
  | true => simpa using hc
  | false => simp [regHas] at *

/-- C1: for a job run through the orchestrator's queue loop, the content
hash of the job's document is added to the dedup registry exactly when the
classify+segment+extract cycle completes without error; when processing
throws (duplicate or generic), the registry is returned unchanged.  The
statement quantifies over every digest function and every processor
behaviour, including failing ones. -/
theorem registry_update_iff_success (hashFn : List Char → List Char)
    (pipeline : List Char → Option ℚ → Except Unit (List (List Char)))
    (reg : List (List Char)) (content : List Char) (conf : Option ℚ) :
    (stepJob hashFn pipeline reg content conf).1 =
      if (stepJob hashFn pipeline reg content conf).2.isCompleted then
        addHash reg (hashFn (cleanContent content))
      else reg := by
  unfold stepJob processDocument
  cases hreg : regHas reg (hashFn (cleanContent content))
  · cases hp : pipeline (cleanContent content) conf <;>
      simp [hreg, hp, JobOutcome.isCompleted]
  · simp [hreg, JobOutcome.isCompleted]

/-- C2: processing the same text twice through a shared registry (the first
time through the queue loop, which registers the hash on success) makes the
second call stop with a duplicate signal carrying exactly the hash computed
on the first processing, namely `hashFn (cleanContent x)`.  The second
call's result is independent of the per-type processor (`proc2` is
arbitrary): the duplicate check happens before classification. -/
theorem second_processing_duplicate (hashFn : List Char → List Char)
    (proc1 proc2 : List Char → Option ℚ → List (List Char))
    (reg : List (List Char)) (x : List Char) (conf1 conf2 : Option ℚ) :
    (processDocument hashFn (totalPipe proc2) x conf2
        ((stepJob hashFn (totalPipe proc1) reg x conf1).1)).1 =
      Except.error (DocError.duplicate (hashFn (cleanContent x)))
    ∧ hashCarried (stepJob hashFn (totalPipe proc1) reg x conf1).2 =
      some (hashFn (cleanContent x)) := by
  cases hreg : regHas reg (hashFn (cleanContent x))
  · have h1 : (stepJob hashFn (totalPipe proc1) reg x conf1).1 =
        addHash reg (hashFn (cleanContent x)) := by
      unfold stepJob processDocument totalPipe
      simp [hreg]
    constructor
    · rw [h1]
      unfold processDocument
      simp [regHas_addHash]
    · unfold stepJob processDocument totalPipe
      simp [hreg, hashCarried]
  · have h1 : (stepJob hashFn (totalPipe proc1) reg x conf1).1 = reg := by
      unfold stepJob processDocument totalPipe
      simp [hreg]
    constructor
    · rw [h1]
      unfold processDocument
      simp [hreg]
    · unfold stepJob processDocument totalPipe
      simp [hreg, hashCarried]

/-- C10: `processDocument` never modifies the dedup registry it is given:
whether it returns a result or signals an error, the registry it leaves
behind is exactly the one it received (the source only calls
`existingHashes.has`); insertion happens only in the orchestrator loop. -/
theorem processDocument_preserves_registry (hashFn : List Char → List Char)
    (pipeline : List Char → Option ℚ → Except Unit (List (List Char)))
    (content : List Char) (conf : Option ℚ) (reg : List (List Char)) :
    (processDocument hashFn pipeline content conf reg).2 = reg := by
  unfold processDocument
  cases hreg : regHas reg (hashFn (cleanContent content))
  · cases hp : pipeline (cleanContent content) conf <;> simp [hreg, hp]
  · simp [hreg]

/-- C9 (code bug): on a queue holding a single job that processes
successfully, both progress reports of the run carry percentage 0 — in
particular the report issued right after the job's transition to
`completed` — while the claimed formula `(completed+failed)/total × 100`
evaluates to 100 for that transition.  The cause: `processQueue` shifts the
job out of `processingQueue` before `getStatus` counts, so the completed
and failed counts it reports are always 0. -/
theorem progress_always_zero_bug :
    (processQueue (fun l => l) (totalPipe fun _ _ => [])
        [⟨lit "نص", none, .pending⟩] []).reports = [0, 0]
    ∧ (processQueue (fun l => l) (totalPipe fun _ _ => [])
        [⟨lit "نص", none, .pending⟩] []).successCount = 1
    ∧ jsRound ((1 + 0 : ℚ) / 1 * 100) = 100 := by
  refine ⟨by decide, by decide, ?_⟩
  norm_num [jsRound]

/-! ## Counterexample theorems -/

/-- C8 counterexample: `cleanContent` is not idempotent.  On `"a\r\r\nb"`
the global `\r\n` replacement consumes the second and third characters and
leaves the fresh adjacent pair `"\r\n"` in its output, which a second
application then rewrites. -/
theorem cleanContent_not_idem_cex :
    cleanContent (lit "a\r\r\nb") = lit "a\r\nb"
    ∧ cleanContent (cleanContent (lit "a\r\r\nb")) = lit "a\nb"
    ∧ cleanContent (cleanContent (lit "a\r\r\nb")) ≠ cleanContent (lit "a\r\r\nb") := by
  refine ⟨by decide, by decide, by decide⟩

/-- C3 counterexample: the non-empty input `"."` under category `laws`
produces zero category-rule chunks, the emergency fallback runs *before*
the 30-character post-filter and yields only the chunk `".."`, and the
final result is empty — refuting "segmentation still returns at least one
chunk" for non-empty input. -/
theorem chunking_empty_result_cex :
    (trimWS (lit ".")).isEmpty = false
    ∧ categoryChunks DocumentType.laws (trimWS (lit ".")) = []
    ∧ emergencyChunks (trimWS (lit ".")) = [lit ".."]
    ∧ ruleBasedChunking (lit ".") DocumentType.laws = [] := by
  refine ⟨by decide, by decide, by decide, by decide⟩

/-- C4 counterexample: on the exact specification example the code returns
no chunks at all (not 2): both article chunks have 15 characters and the
`length > 30` post-filter drops them. -/
theorem laws_example_filtered_cex :
    ruleBasedChunking lawsExampleText DocumentType.laws = []
    ∧ (ruleBasedChunking lawsExampleText DocumentType.laws).length ≠ 2 := by
  refine ⟨by decide, by decide⟩

/-- C6 counterexample: on input `"x"` every profile scores 0, so all twelve
profiles tie at the highest score; the first category in profile-definition
order is `laws`, but the classifier returns its initial value `others`. -/
theorem classifier_zero_tie_cex :
    profileList.all (fun tp => score2 (lit "x") tp.2 == 0) = true
    ∧ (profileList.map Prod.fst).head? = some DocumentType.laws
    ∧ (classifyDocument (lit "x")).type = DocumentType.others
    ∧ DocumentType.others ≠ DocumentType.laws := by
  refine ⟨by decide, by decide, by decide, by decide⟩

/-- C7 counterexample: `عقد` is a strong identifier belonging to exactly
one profile (`judicial_civil`), and the text contains it, yet the
classifier returns `judicial_criminal`, whose three matched identifiers
outscore it. -/
theorem unique_identifier_cex :
    (profileList.filter (fun tp => tp.2.identifiers.contains (lit "عقد"))).map Prod.fst
      = [DocumentType.judicial_civil]
    ∧ hasSub (lit "عقد") (lit "عقد جناية جنحة عقوبة") = true
    ∧ (classifyDocument (lit "عقد جناية جنحة عقوبة")).type = DocumentType.judicial_criminal
    ∧ DocumentType.judicial_criminal ≠ DocumentType.judicial_civil := by
  refine ⟨by decide, by decide, by decide, by decide⟩

/-- C5 counterexample: on `royalSpanText` the attached-instrument marker
occurs at position 60, but the single chunk the code returns (built by the
emergency fallback from the whole text) lies inside neither the decree side
nor the instrument side — it spans both, so the output cannot be split into
decree-side chunks followed by instrument-side chunks. -/
theorem royal_decrees_spanning_cex :
    searchAgreement royalSpanText = some 60
    ∧ ruleBasedChunking royalSpanText DocumentType.royal_decrees ≠ []
    ∧ (ruleBasedChunking royalSpanText DocumentType.royal_decrees).all
        (fun c => hasSub c (royalSpanText.take 60) || hasSub c (royalSpanText.drop 60)) = false := by
  refine ⟨by decide, by decide, by decide⟩

/-! ## `cleanContent` idempotence on carriage-return-free input (C8) -/

theorem spNF_two (a b : Char) (l : List Char) :
    spNF (a :: b :: l) = (!(a == '\t') && !(isSpTab a && isSpTab b) && spNF (b :: l)) := rfl

theorem nlNF_three (a b c : Char) (l : List Char) :
    nlNF (a :: b :: c :: l) = (!(a == '\n' && b == '\n' && c == '\n') && nlNF (b :: c :: l)) := rfl

theorem spNF_tail (a : Char) (l : List Char) (h : spNF (a :: l) = true) : spNF l = true := by
  cases l with
  | nil => rfl
  | cons b r =>
    rw [spNF_two] at h
    simp only [Bool.and_eq_true] at h
    exact h.2

theorem spNF_head_tab (a : Char) (l : List Char) (h : spNF (a :: l) = true) :
    (a == '\t') = false := by
  cases l with
  | nil =>
    simp only [spNF, Bool.not_eq_true'] at h
    exact h
  | cons b r =>
    rw [spNF_two] at h
    simp only [Bool.and_eq_true, Bool.not_eq_true'] at h
    exact h.1.1

theorem spNF_pair (a b : Char) (l : List Char) (h : spNF (a :: b :: l) = true) :
    (isSpTab a && isSpTab b) = false := by
  rw [spNF_two] at h
  simp only [Bool.and_eq_true, Bool.not_eq_true'] at h
  exact h.1.2

theorem nlNF_tail (a : Char) (l : List Char) (h : nlNF (a :: l) = true) : nlNF l = true := by
  cases l with
  | nil => rfl
  | cons b r =>
    cases r with
    | nil => rfl
    | cons c s =>
      rw [nlNF_three] at h
      simp only [Bool.and_eq_true] at h
      exact h.2

theorem spNF_cons_of (a : Char) (X : List Char) (hta : (a == '\t') = false)
    (hp : (match X with | b :: _ => !(isSpTab a && isSpTab b) | [] => true) = true)
    (hX : spNF X = true) : spNF (a :: X) = true := by
  cases X with
  | nil => simpa [spNF] using hta
  | cons b Y =>
    have hp2 : (!(isSpTab a && isSpTab b)) = true := hp
    rw [spNF_two]
    simp only [hta, hp2, hX, Bool.not_false, Bool.and_true, Bool.true_and]

theorem nlNF_cons_of (a : Char) (X : List Char)
    (hp : (match X with | b :: c :: _ => !(a == '\n' && b == '\n' && c == '\n') | _ => true) = true)
    (hX : nlNF X = true) : nlNF (a :: X) = true := by
  cases X with
  | nil => rfl
  | cons b Y =>
    cases Y with
    | nil => rfl
    | cons c Z =>
      rw [nlNF_three]
      simp only [Bool.and_eq_true]
      exact ⟨by simpa using hp, hX⟩

theorem not_tab_of_not_sp {x : Char} (hx : isSpTab x = false) : (x == '\t') = false := by
  simp only [isSpTab, Bool.or_eq_false_iff] at hx
  exact hx.2

/-- The head of `collapseSpGo true l` is never a space or tab: the scanner is
mid-run, so leading run characters are dropped. -/
theorem collapseSpGo_true_head (l : List Char) :
    ∀ c, (collapseSpGo true l).head? = some c → isSpTab c = false := by
  induction l with
  | nil => intro c h; simp [collapseSpGo] at h
  | cons x r ih =>
    intro c h
    by_cases hx : isSpTab x = true
    · rw [show collapseSpGo true (x :: r) = collapseSpGo true r from by
        simp [collapseSpGo, hx]] at h
      exact ih c h
    · rw [show collapseSpGo true (x :: r) = x :: collapseSpGo false r from by
        simp [collapseSpGo, hx]] at h
      simp only [List.head?_cons, Option.some.injEq] at h
      rw [← h]
      simpa using hx

/-- The output of the space-collapsing scanner is in space normal form. -/
theorem spNF_collapseSpGo (l : List Char) : ∀ b, spNF (collapseSpGo b l) = true := by
  induction l with
  | nil => intro b; rfl
  | cons x r ih =>
    intro b
    by_cases hx : isSpTab x = true
    · cases b with
      | false =>
        rw [show collapseSpGo false (x :: r) = ' ' :: collapseSpGo true r from by
          simp [collapseSpGo, hx]]
        apply spNF_cons_of
        · decide
        · cases hout : collapseSpGo true r with
          | nil => rfl
          | cons y ys =>
            have hy : isSpTab y = false := collapseSpGo_true_head r y (by rw [hout]; rfl)
            simp [hy]
        · exact ih true
      | true =>
        rw [show collapseSpGo true (x :: r) = collapseSpGo true r from by
          simp [collapseSpGo, hx]]
        exact ih true
    · have hxf : isSpTab x = false := by simpa using hx
      rw [show collapseSpGo b (x :: r) = x :: collapseSpGo false r from by
        cases b <;> simp [collapseSpGo, hxf]]
      apply spNF_cons_of
      · exact not_tab_of_not_sp hxf
      · cases collapseSpGo false r with
        | nil => rfl
        | cons y ys => simp [hxf]
      · exact ih false

/-- When already past a space run whose single space has been emitted, a
non-space head resynchronises the two scanner states. -/
theorem collapseSpGo_true_switch (y : Char) (ys : List Char) (hy : isSpTab y = false) :
    collapseSpGo true (y :: ys) = collapseSpGo false (y :: ys) := by
  simp [collapseSpGo, hy]

/-- Strings in space normal form are fixed points of `collapseSp`. -/
theorem collapseSp_fix (l : List Char) (h : spNF l = true) : collapseSpGo false l = l := by
  induction l with
  | nil => rfl
  | cons x r ih =>
    have hr : spNF r = true := spNF_tail x r h
    by_cases hx : isSpTab x = true
    · have hxsp : x = ' ' := by
        have ht := spNF_head_tab x r h
        simp only [isSpTab, Bool.or_eq_true] at hx
        rcases hx with h1 | h1
        · simpa using h1
        · rw [h1] at ht; simp at ht
      subst hxsp
      rw [show collapseSpGo false (' ' :: r) = ' ' :: collapseSpGo true r from by
        simp [collapseSpGo, isSpTab]]
      congr 1
      cases r with
      | nil => rfl
      | cons y ys =>
        have hy : isSpTab y = false := by
          have := spNF_pair ' ' y ys h
          simpa [isSpTab] using this
        rw [collapseSpGo_true_switch y ys hy]
        exact ih hr
    · have hxf : isSpTab x = false := by simpa using hx
      rw [show collapseSpGo false (x :: r) = x :: collapseSpGo false r from by
        simp [collapseSpGo, hxf]]
      rw [ih hr]

/-- Once two newlines of a run have been emitted, the next emitted character
is not a newline. -/
theorem collapseNlGo_ge2_head (l : List Char) :
    ∀ n, 2 ≤ n → ∀ c, (collapseNlGo n l).head? = some c → (c == '\n') = false := by
  induction l with
  | nil => intro n _ c h; simp [collapseNlGo] at h
  | cons x r ih =>
    intro n hn c h
    by_cases hx : x = '\n'
    · subst hx
      rw [show collapseNlGo n ('\n' :: r) = collapseNlGo (n + 1) r from by
        simp [collapseNlGo]; omega] at h
      exact ih (n + 1) (by omega) c h
    · rw [show collapseNlGo n (x :: r) = x :: collapseNlGo 0 r from by
        simp [collapseNlGo, hx]] at h
      simp only [List.head?_cons, Option.some.injEq] at h
      rw [← h]
      simpa using hx

/-- The output of the newline-collapsing scanner has no triple newline. -/
theorem nlNF_collapseNlGo (l : List Char) : ∀ n, nlNF (collapseNlGo n l) = true := by
  induction l with
  | nil => intro n; rfl
  | cons x r ih =>
    intro n
    by_cases hx : x = '\n'
    · subst hx
      by_cases hn : n < 2
      · rw [show collapseNlGo n ('\n' :: r) = '\n' :: collapseNlGo (n + 1) r from by
          simp [collapseNlGo, hn]]
        apply nlNF_cons_of
        · cases r with
          | nil => rfl
          | cons y s =>
            by_cases hy : y = '\n'
            · subst hy
              by_cases hn1 : n + 1 < 2
              · rw [show collapseNlGo (n + 1) ('\n' :: s) = '\n' :: collapseNlGo (n + 2) s from by
                  simp [collapseNlGo, hn1]]
                cases hz : collapseNlGo (n + 2) s with
                | nil => rfl
                | cons z zs =>
                  have hzn : (z == '\n') = false :=
                    collapseNlGo_ge2_head s (n + 2) (by omega) z (by rw [hz]; rfl)
                  simp [hzn]
              · rw [show collapseNlGo (n + 1) ('\n' :: s) = collapseNlGo (n + 2) s from by
                  simp [collapseNlGo, hn1]]
                cases hz : collapseNlGo (n + 2) s with
                | nil => rfl
                | cons z zs =>
                  have hzn : (z == '\n') = false :=
                    collapseNlGo_ge2_head s (n + 2) (by omega) z (by rw [hz]; rfl)
                  cases zs with
                  | nil => rfl
                  | cons w ws => simp [hzn]
            · rw [show collapseNlGo (n + 1) (y :: s) = y :: collapseNlGo 0 s from by
                simp [collapseNlGo, hy]]
              cases collapseNlGo 0 s with
              | nil => rfl
              | cons w ws => simp [hy]
        · exact ih (n + 1)
      · rw [show collapseNlGo n ('\n' :: r) = collapseNlGo (n + 1) r from by
          simp [collapseNlGo, hn]]
        exact ih (n + 1)
    · rw [show collapseNlGo n (x :: r) = x :: collapseNlGo 0 r from by
        simp [collapseNlGo, hx]]
      apply nlNF_cons_of
      · cases collapseNlGo 0 r with
        | nil => rfl
        | cons z zs =>
          cases zs with
          | nil => rfl
          | cons w ws => simp [hx]
      · exact ih 0

/-- The newline-collapsing scanner preserves space normal form: it only
drops newlines from runs of three or more, and the two it keeps still
separate the characters on either side. -/
theorem spNF_collapseNlGo (l : List Char) : ∀ n, spNF l = true → spNF (collapseNlGo n l) = true := by
  induction l with
  | nil => intro n _; rfl
  | cons x r ih =>
    intro n h
    have hr : spNF r = true := spNF_tail x r h
    by_cases hx : x = '\n'
    · subst hx
      by_cases hn : n < 2
      · rw [show collapseNlGo n ('\n' :: r) = '\n' :: collapseNlGo (n + 1) r from by
          simp [collapseNlGo, hn]]
        apply spNF_cons_of
        · decide
        · cases collapseNlGo (n + 1) r with
          | nil => rfl
          | cons y ys => simp [isSpTab]
        · exact ih (n + 1) hr
      · rw [show collapseNlGo n ('\n' :: r) = collapseNlGo (n + 1) r from by
          simp [collapseNlGo, hn]]
        exact ih (n + 1) hr
    · rw [show collapseNlGo n (x :: r) = x :: collapseNlGo 0 r from by
        simp [collapseNlGo, hx]]
      apply spNF_cons_of
      · exact spNF_head_tab x r h
      · cases r with
        | nil => rfl
        | cons y s =>
          by_cases hy : y = '\n'
          · subst hy
            rw [show collapseNlGo 0 ('\n' :: s) = '\n' :: collapseNlGo 1 s from by
              simp [collapseNlGo]]
            simp [isSpTab]
          · rw [show collapseNlGo 0 (y :: s) = y :: collapseNlGo 0 s from by
              simp [collapseNlGo, hy]]
            simp [spNF_pair x y s h]
      · exact ih 0 hr

theorem leadNl_cons_nl (r : List Char) : leadNl ('\n' :: r) = leadNl r + 1 := by
  simp [leadNl, List.takeWhile]

theorem leadNl_cons_other (x : Char) (r : List Char) (hx : ¬ x = '\n') :
    leadNl (x :: r) = 0 := by
  have hb : (x == '\n') = false := by simp [hx]
  simp [leadNl, List.takeWhile, hb]

/-- A string with no triple newline has a leading newline run of length ≤ 2. -/
theorem nlNF_leadNl (l : List Char) (h : nlNF l = true) : leadNl l ≤ 2 := by
  cases l with
  | nil => simp [leadNl]
  | cons a r =>
    by_cases ha : a = '\n'
    · subst ha
      cases r with
      | nil => simp [leadNl, List.takeWhile]
      | cons b s =>
        by_cases hb : b = '\n'
        · subst hb
          cases s with
          | nil => simp [leadNl, List.takeWhile]
          | cons c t =>
            by_cases hc : c = '\n'
            · subst hc
              rw [nlNF_three] at h
              simp at h
            · rw [leadNl_cons_nl, leadNl_cons_nl, leadNl_cons_other c t hc]
        · rw [leadNl_cons_nl, leadNl_cons_other b s hb]
          omega
    · rw [leadNl_cons_other a r ha]
      omega

/-- Strings with no triple newline (and a leading run short enough for the
scanner state) are fixed points of the newline-collapsing scanner. -/
theorem collapseNlGo_fix (l : List Char) :
    ∀ n, nlNF l = true → leadNl l + n ≤ 2 → collapseNlGo n l = l := by
  induction l with
  | nil => intro n _ _; rfl
  | cons x r ih =>
    intro n h hlead
    have hr : nlNF r = true := nlNF_tail x r h
    by_cases hx : x = '\n'
    · subst hx
      rw [leadNl_cons_nl] at hlead
      rw [show collapseNlGo n ('\n' :: r) = '\n' :: collapseNlGo (n + 1) r from by
        simp [collapseNlGo]; omega]
      rw [ih (n + 1) hr (by omega)]
    · rw [show collapseNlGo n (x :: r) = x :: collapseNlGo 0 r from by
        simp [collapseNlGo, hx]]
      rw [ih 0 hr (by simpa using nlNF_leadNl r hr)]

theorem collapseNl_fix (l : List Char) (h : nlNF l = true) : collapseNl l = l :=
  collapseNlGo_fix l 0 h (by simpa using nlNF_leadNl l h)

theorem spNF_pre : ∀ (m l : List Char), m <+: l → spNF l = true → spNF m = true := by
  intro m
  induction m with
  | nil => intro l _ _; rfl
  | cons a m2 ih =>
    intro l hpre h
    cases l with
    | nil => exact absurd (List.eq_nil_of_prefix_nil hpre) (by simp)
    | cons b l2 =>
      obtain ⟨hab, hm2⟩ := (List.cons_prefix_cons).mp hpre
      subst hab
      apply spNF_cons_of
      · exact spNF_head_tab a l2 h
      · cases m2 with
        | nil => rfl
        | cons c m3 =>
          cases l2 with
          | nil => exact absurd (List.eq_nil_of_prefix_nil hm2) (by simp)
          | cons d l3 =>
            obtain ⟨hcd, _⟩ := (List.cons_prefix_cons).mp hm2
            subst hcd
            simp [spNF_pair a c l3 h]
      · exact ih l2 hm2 (spNF_tail a l2 h)

theorem nlNF_pre : ∀ (m l : List Char), m <+: l → nlNF l = true → nlNF m = true := by
  intro m
  induction m with
  | nil => intro l _ _; rfl
  | cons a m2 ih =>
    intro l hpre h
    cases l with
    | nil => exact absurd (List.eq_nil_of_prefix_nil hpre) (by simp)
    | cons b l2 =>
      obtain ⟨hab, hm2⟩ := (List.cons_prefix_cons).mp hpre
      subst hab
      apply nlNF_cons_of
      · cases m2 with
        | nil => rfl
        | cons c m3 =>
          cases m3 with
          | nil => rfl
          | cons d m4 =>
            cases l2 with
            | nil => exact absurd (List.eq_nil_of_prefix_nil hm2) (by simp)
            | cons c2 l3 =>
              obtain ⟨hc, hm3⟩ := (List.cons_prefix_cons).mp hm2
              subst hc
              cases l3 with
              | nil => exact absurd (List.eq_nil_of_prefix_nil hm3) (by simp)
              | cons d2 l4 =>
                obtain ⟨hd, _⟩ := (List.cons_prefix_cons).mp hm3
                subst hd
                rw [nlNF_three] at h
                simp only [Bool.and_eq_true] at h
                exact h.1
      · exact ih l2 hm2 (nlNF_tail a l2 h)

theorem spNF_dropWhile (p : Char → Bool) (l : List Char) (h : spNF l = true) :
    spNF (l.dropWhile p) = true := by
  induction l with
  | nil => exact h
  | cons x r ih =>
    rw [List.dropWhile_cons]
    by_cases hx : p x = true
    · simp only [hx, if_true]
      exact ih (spNF_tail x r h)
    · simp only [hx, if_false]
      exact h

theorem nlNF_dropWhile (p : Char → Bool) (l : List Char) (h : nlNF l = true) :
    nlNF (l.dropWhile p) = true := by
  induction l with
  | nil => exact h
  | cons x r ih =>
    rw [List.dropWhile_cons]
    by_cases hx : p x = true
    · simp only [hx, if_true]
      exact ih (nlNF_tail x r h)
    · simp only [hx, if_false]
      exact h

theorem trimEnd_pre (l : List Char) : trimEnd l <+: l := by
  induction l with
  | nil => exact List.prefix_rfl
  | cons c rest ih =>
    show (match trimEnd rest with
      | [] => if isJsWS c then [] else [c]
      | out => c :: out) <+: c :: rest
    cases h : trimEnd rest with
    | nil =>
      by_cases hc : isJsWS c = true
      · simp [hc]
      · simp only [hc, if_false]
        exact (List.cons_prefix_cons).mpr ⟨rfl, List.nil_prefix⟩
    | cons o os =>
      exact (List.cons_prefix_cons).mpr ⟨rfl, h ▸ ih⟩

theorem spNF_trimWS (l : List Char) (h : spNF l = true) : spNF (trimWS l) = true :=
  spNF_pre _ _ (trimEnd_pre _) (spNF_dropWhile isJsWS l h)

theorem nlNF_trimWS (l : List Char) (h : nlNF l = true) : nlNF (trimWS l) = true :=
  nlNF_pre _ _ (trimEnd_pre _) (nlNF_dropWhile isJsWS l h)

theorem dropWhile_head_not (p : Char → Bool) (l : List Char) :
    ∀ c, (l.dropWhile p).head? = some c → p c = false := by
  induction l with
  | nil => intro c h; simp at h
  | cons x r ih =>
    intro c h
    rw [List.dropWhile_cons] at h
    cases hx : p x with
    | true =>
      simp only [hx, if_true] at h
      exact ih c h
    | false =>
      simp only [hx, Bool.false_eq_true, if_false, List.head?_cons, Option.some.injEq] at h
      rw [← h]
      exact hx

theorem dropWhile_eq_self (p : Char → Bool) (l : List Char)
    (h : ∀ c, l.head? = some c → p c = false) : l.dropWhile p = l := by
  cases l with
  | nil => rfl
  | cons x r =>
    rw [List.dropWhile_cons]
    simp [h x rfl]

theorem headOfPre {m l : List Char} (hpre : m <+: l) {c : Char}
    (hc : m.head? = some c) : l.head? = some c := by
  cases m with
  | nil => simp at hc
  | cons a m2 =>
    cases l with
    | nil => exact absurd (List.eq_nil_of_prefix_nil hpre) (by simp)
    | cons b l2 =>
      obtain ⟨hab, _⟩ := (List.cons_prefix_cons).mp hpre
      subst hab
      exact hc

theorem trimEnd_idem (l : List Char) : trimEnd (trimEnd l) = trimEnd l := by
  induction l with
  | nil => rfl
  | cons c rest ih =>
    show trimEnd (match trimEnd rest with
      | [] => if isJsWS c then [] else [c]
      | out => c :: out) = (match trimEnd rest with
      | [] => if isJsWS c then [] else [c]
      | out => c :: out)
    cases h : trimEnd rest with
    | nil =>
      by_cases hc : isJsWS c = true
      · simp [hc, trimEnd]
      · simp only [hc, if_false]
        show (match trimEnd [] with
          | [] => if isJsWS c then [] else [c]
          | out => c :: out) = [c]
        simp [trimEnd, hc]
    | cons o os =>
      show (match trimEnd (o :: os) with
        | [] => if isJsWS c then [] else [c]
        | out => c :: out) = c :: o :: os
      have hoo : trimEnd (o :: os) = o :: os := by rw [← h]; exact ih
      rw [hoo]

theorem trimWS_idem (l : List Char) : trimWS (trimWS l) = trimWS l := by
  show trimEnd ((trimEnd (l.dropWhile isJsWS)).dropWhile isJsWS) = trimEnd (l.dropWhile isJsWS)
  rw [dropWhile_eq_self isJsWS (trimEnd (l.dropWhile isJsWS)) ?_]
  · exact trimEnd_idem _
  · intro c hc
    exact dropWhile_head_not isJsWS l c (headOfPre (trimEnd_pre _) hc)

theorem replCRLF_id : ∀ (l : List Char), '\r' ∉ l → replCRLF l = l
  | [], _ => rfl
  | [c], _ => rfl
  | a :: b :: rest, h => by
    have ha : ¬(a = '\r' ∧ b = '\n') := by
      intro hab
      exact h (by simp [hab.1])
    show (if a = '\r' ∧ b = '\n' then '\n' :: replCRLF rest else a :: replCRLF (b :: rest)) =
      a :: b :: rest
    rw [if_neg ha]
    have : '\r' ∉ b :: rest := fun hm => h (List.mem_cons_of_mem a hm)
    rw [replCRLF_id (b :: rest) this]

theorem mem_collapseSpGo (l : List Char) :
    ∀ b c, c ∈ collapseSpGo b l → c ∈ l ∨ c = ' ' := by
  induction l with
  | nil => intro b c h; simp [collapseSpGo] at h
  | cons x r ih =>
    intro b c h
    by_cases hx : isSpTab x = true
    · cases b with
      | true =>
        rw [show collapseSpGo true (x :: r) = collapseSpGo true r from by
          simp [collapseSpGo, hx]] at h
        rcases ih true c h with h1 | h1
        · exact Or.inl (List.mem_cons_of_mem x h1)
        · exact Or.inr h1
      | false =>
        rw [show collapseSpGo false (x :: r) = ' ' :: collapseSpGo true r from by
          simp [collapseSpGo, hx]] at h
        rcases List.mem_cons.mp h with h1 | h1
        · exact Or.inr h1
        · rcases ih true c h1 with h2 | h2
          · exact Or.inl (List.mem_cons_of_mem x h2)
          · exact Or.inr h2
    · have hxf : isSpTab x = false := by simpa using hx
      rw [show collapseSpGo b (x :: r) = x :: collapseSpGo false r from by
        cases b <;> simp [collapseSpGo, hxf]] at h
      rcases List.mem_cons.mp h with h1 | h1
      · exact Or.inl (by simp [h1])
      · rcases ih false c h1 with h2 | h2
        · exact Or.inl (List.mem_cons_of_mem x h2)
        · exact Or.inr h2

theorem mem_collapseNlGo (l : List Char) :
    ∀ n c, c ∈ collapseNlGo n l → c ∈ l := by
  induction l with
  | nil => intro n c h; simp [collapseNlGo] at h
  | cons x r ih =>
    intro n c h
    by_cases hx : x = '\n'
    · subst hx
      by_cases hn : n < 2
      · rw [show collapseNlGo n ('\n' :: r) = '\n' :: collapseNlGo (n + 1) r from by
          simp [collapseNlGo, hn]] at h
        rcases List.mem_cons.mp h with h1 | h1
        · exact List.mem_cons.mpr (Or.inl h1)
        · exact List.mem_cons_of_mem _ (ih (n + 1) c h1)
      · rw [show collapseNlGo n ('\n' :: r) = collapseNlGo (n + 1) r from by
          simp [collapseNlGo, hn]] at h
        exact List.mem_cons_of_mem _ (ih (n + 1) c h)
    · rw [show collapseNlGo n (x :: r) = x :: collapseNlGo 0 r from by
        simp [collapseNlGo, hx]] at h
      rcases List.mem_cons.mp h with h1 | h1
      · exact List.mem_cons.mpr (Or.inl h1)
      · exact List.mem_cons_of_mem _ (ih 0 c h1)

theorem mem_trimWS {c : Char} {l : List Char} (h : c ∈ trimWS l) : c ∈ l :=
  (List.dropWhile_sublist isJsWS).subset ((trimEnd_pre (l.dropWhile isJsWS)).subset h)

/-- C8 (amended): `cleanContent` is idempotent on every input containing no
carriage return.  (The general claim fails: see `cleanContent_not_idem_cex`;
the `\r\n` replace can itself create a new `\r\n` pair out of `\r\r\n`.) -/
theorem cleanContent_idem_noCR (l : List Char) (h : '\r' ∉ l) :
    cleanContent (cleanContent l) = cleanContent l := by
  have hno : '\r' ∉ cleanContent l := by
    intro hc
    have h1 : ('\r' : Char) ∈ collapseNl (collapseSp (replCRLF l)) := mem_trimWS hc
    have h2 : ('\r' : Char) ∈ collapseSp (replCRLF l) := mem_collapseNlGo _ 0 '\r' h1
    rcases mem_collapseSpGo _ false '\r' h2 with h3 | h3
    · rw [replCRLF_id l h] at h3
      exact h h3
    · simp at h3
  have hsp : spNF (cleanContent l) = true :=
    spNF_trimWS _ (spNF_collapseNlGo _ 0 (spNF_collapseSpGo _ false))
  have hnl : nlNF (cleanContent l) = true :=
    nlNF_trimWS _ (nlNF_collapseNlGo _ 0)
  show trimWS (collapseNl (collapseSp (replCRLF (cleanContent l)))) = cleanContent l
  rw [replCRLF_id _ hno]
  rw [show collapseSp (cleanContent l) = cleanContent l from collapseSp_fix _ hsp]
  rw [collapseNl_fix _ hnl]
  exact trimWS_idem _

/-- Witness for C8 (amended) at a concrete carriage-return-free input. -/
theorem cleanContent_idem_noCR_witness :
    '\r' ∉ lit "a  b\n\n\n\nc" ∧
    cleanContent (cleanContent (lit "a  b\n\n\n\nc")) = cleanContent (lit "a  b\n\n\n\nc") :=
  ⟨by decide, cleanContent_idem_noCR (lit "a  b\n\n\n\nc") (by decide)⟩

/-- C4 (amended): on the exact example text, the `laws` category rules do
split into exactly 2 chunks, each beginning with its article marker — but
both chunks have 15 (≤ 30) characters, so the post-filter drops them and
the returned list is empty. -/
theorem laws_example_prefilter_amended :
    categoryChunks DocumentType.laws (trimWS lawsExampleText) =
      [lit "المادة 1: نص أ.", lit "المادة 2: نص ب."]
    ∧ hasPre (lit "المادة 1") (lit "المادة 1: نص أ.") = true
    ∧ hasPre (lit "المادة 2") (lit "المادة 2: نص ب.") = true
    ∧ jsLen (lit "المادة 1: نص أ.") ≤ 30
    ∧ jsLen (lit "المادة 2: نص ب.") ≤ 30
    ∧ ruleBasedChunking lawsExampleText DocumentType.laws = [] := by
  refine ⟨by decide, by decide, by decide, by decide, by decide, by decide⟩

/-! ## Classifier scan lemmas (C6, C7) -/

theorem score_le_maxScoreL (content : List Char) :
    ∀ (l : List (DocumentType × CategoryProfile)) (tp : DocumentType × CategoryProfile),
      tp ∈ l → score2 content tp.2 ≤ maxScoreL content l := by
  intro l
  induction l with
  | nil => intro tp h; simp at h
  | cons x r ih =>
    intro tp h
    rcases List.mem_cons.mp h with h1 | h1
    · subst h1
      exact Nat.le_max_left _ _
    · exact Nat.le_trans (ih tp h1) (Nat.le_max_right _ _)

theorem pick_keep (content : List Char) :
    ∀ (l : List (DocumentType × CategoryProfile)) (b : DocumentType × Nat × List (List Char)),
      (∀ tp ∈ l, score2 content tp.2 ≤ b.2.1) →
      l.foldl (pickStep content) b = b := by
  intro l
  induction l with
  | nil => intro b _; rfl
  | cons x r ih =>
    intro b h
    have hx : score2 content x.2 ≤ b.2.1 := h x (List.mem_cons_self x r)
    have hstep : pickStep content b x = b := by
      unfold pickStep
      rw [if_neg (by omega)]
    rw [List.foldl_cons, hstep]
    exact ih b (fun tp htp => h tp (List.mem_cons_of_mem x htp))

/-- The scan with strict replacement returns the *first* list entry whose
score attains the maximum, provided the maximum beats the initial best. -/
theorem pick_first (content : List Char) :
    ∀ (l : List (DocumentType × CategoryProfile)) (b : DocumentType × Nat × List (List Char)),
      b.2.1 < maxScoreL content l →
      ∃ tp, l.find? (fun x => score2 content x.2 == maxScoreL content l) = some tp
        ∧ score2 content tp.2 = maxScoreL content l
        ∧ l.foldl (pickStep content) b = (tp.1, score2 content tp.2, matchedOf content tp.2) := by
  intro l
  induction l with
  | nil => intro b hb; simp [maxScoreL] at hb
  | cons x r ih =>
    intro b hb
    by_cases hx : maxScoreL content r ≤ score2 content x.2
    · have hM : maxScoreL content (x :: r) = score2 content x.2 := by
        show max (score2 content x.2) (maxScoreL content r) = score2 content x.2
        omega
      have hb2 : b.2.1 < score2 content x.2 := by rw [hM] at hb; exact hb
      refine ⟨x, ?_, by rw [hM], ?_⟩
      · exact List.find?_cons_of_pos r (by rw [hM]; exact beq_self_eq_true _)
      · have hstep : pickStep content b x = (x.1, score2 content x.2, matchedOf content x.2) := by
          unfold pickStep
          rw [if_pos hb2]
        rw [List.foldl_cons, hstep]
        exact pick_keep content r _ (fun tp htp => by
          show score2 content tp.2 ≤ score2 content x.2
          exact Nat.le_trans (score_le_maxScoreL content r tp htp) hx)
    · have hlt : score2 content x.2 < maxScoreL content r := Nat.not_le.mp hx
      have hM : maxScoreL content (x :: r) = maxScoreL content r := by
        show max (score2 content x.2) (maxScoreL content r) = maxScoreL content r
        omega
      have hb2 : (pickStep content b x).2.1 < maxScoreL content r := by
        unfold pickStep
        by_cases hc : b.2.1 < score2 content x.2
        · rw [if_pos hc]; exact hlt
        · rw [if_neg hc]; rw [hM] at hb; exact hb
      obtain ⟨tp, hfind, hsc, hfold⟩ := ih (pickStep content b x) hb2
      refine ⟨tp, ?_, by rw [hM]; exact hsc, ?_⟩
      · rw [List.find?_cons_of_neg r (by rw [hM]; simp; omega), hM]
        exact hfind
      · rw [List.foldl_cons]
        exact hfold

/-- C6 (amended): whenever the highest classification score is positive,
`classifyDocument` returns the first category in profile-definition order
attaining it — in particular, positive ties resolve to the earlier profile.
(With an all-zero tie the scan keeps its initial value `others`; see
`classifier_zero_tie_cex`.) -/
theorem classifier_tie_first_amended (content : List Char)
    (h : 0 < maxScoreL content profileList) :
    ∃ tp, profileList.find?
        (fun x => score2 content x.2 == maxScoreL content profileList) = some tp
      ∧ (classifyDocument content).type = tp.1 := by
  obtain ⟨tp, hfind, _, hfold⟩ :=
    pick_first content profileList (DocumentType.others, 0, []) (by simpa using h)
  refine ⟨tp, hfind, ?_⟩
  show (profileList.foldl (pickStep content) (DocumentType.others, 0, [])).1 = tp.1
  rw [hfold]

/-- Witness for C6 (amended): `"دليل نموذج"` scores 1.0 for both `indexes`
and `templates` (a positive tie); the classifier picks `indexes`, the
earlier profile. -/
theorem classifier_tie_first_witness :
    0 < maxScoreL (lit "دليل نموذج") profileList
    ∧ (classifyDocument (lit "دليل نموذج")).type = DocumentType.indexes := by
  refine ⟨by decide, ?_⟩
  obtain ⟨tp, hfind, htype⟩ := classifier_tie_first_amended (lit "دليل نموذج") (by decide)
  have hmap : (profileList.find?
      (fun x => score2 (lit "دليل نموذج") x.2 == maxScoreL (lit "دليل نموذج") profileList)).map
        Prod.fst = some DocumentType.indexes := by decide
  rw [hfind] at hmap
  simp only [Option.map_some'] at hmap
  rw [htype]
  exact Option.some.inj hmap

theorem score2_pos (content : List Char) (p : CategoryProfile) (pat : List Char)
    (hpat : pat ∈ p.identifiers) (hsub : hasSub pat content = true) :
    0 < score2 content p := by
  unfold score2
  have : 0 < p.identifiers.countP (fun q => hasSub q content) :=
    List.countP_pos_iff.mpr ⟨pat, hpat, hsub⟩
  omega

theorem score2_zero (content : List Char) (p : CategoryProfile)
    (h : ∀ q ∈ p.identifiers ++ p.structural, hasSub q content = false) :
    score2 content p = 0 := by
  unfold score2
  have h1 : p.identifiers.countP (fun q => hasSub q content) = 0 :=
    List.countP_eq_zero.mpr (fun a ha => by
      simp [h a (List.mem_append.mpr (Or.inl ha))])
  have h2 : p.structural.countP (fun q => hasSub q content) = 0 :=
    List.countP_eq_zero.mpr (fun a ha => by
      simp [h a (List.mem_append.mpr (Or.inr ha))])
  omega

theorem nodup_key_unique :
    ∀ (l : List (DocumentType × CategoryProfile)), (l.map Prod.fst).Nodup →
      ∀ (A : DocumentType) (pA : CategoryProfile) (tp : DocumentType × CategoryProfile),
        (A, pA) ∈ l → tp ∈ l → tp.1 = A → tp = (A, pA) := by
  intro l
  induction l with
  | nil => intro _ A pA tp h; simp at h
  | cons x r ih =>
    intro hnd A pA tp hApA htp htpA
    rw [List.map_cons, List.nodup_cons] at hnd
    rcases List.mem_cons.mp hApA with h1 | h1
    · rcases List.mem_cons.mp htp with h2 | h2
      · rw [h2, h1]
      · exfalso
        apply hnd.1
        rw [← h1]
        exact List.mem_map.mpr ⟨tp, h2, htpA⟩
    · rcases List.mem_cons.mp htp with h2 | h2
      · exfalso
        apply hnd.1
        rw [← h2, htpA]
        exact List.mem_map.mpr ⟨(A, pA), h1, rfl⟩
      · exact ih hnd.2 A pA tp h1 h2 htpA

/-- When exactly one profile (tag `A`) has a positive score and all other
entries score 0, the scan returns `A`'s entry. -/
theorem pick_unique_pos (content : List Char) :
    ∀ (l : List (DocumentType × CategoryProfile)) (b : DocumentType × Nat × List (List Char))
      (A : DocumentType) (pA : CategoryProfile),
      (l.map Prod.fst).Nodup → (A, pA) ∈ l → b.2.1 = 0 → 0 < score2 content pA →
      (∀ tp ∈ l, tp.1 ≠ A → score2 content tp.2 = 0) →
      l.foldl (pickStep content) b = (A, score2 content pA, matchedOf content pA) := by
  intro l
  induction l with
  | nil => intro b A pA _ hmem; simp at hmem
  | cons x r ih =>
    intro b A pA hnd hmem hb hpos hzero
    by_cases hxA : x.1 = A
    · have hxx : x = (A, pA) :=
        nodup_key_unique (x :: r) hnd A pA x hmem (List.mem_cons_self x r) hxA
      subst hxx
      have hstep : pickStep content b (A, pA) = (A, score2 content pA, matchedOf content pA) := by
        unfold pickStep
        rw [if_pos (show b.2.1 < score2 content (A, pA).2 from by rw [hb]; exact hpos)]
      rw [List.foldl_cons, hstep]
      rw [List.map_cons, List.nodup_cons] at hnd
      exact pick_keep content r _ (fun tp htp => by
        show score2 content tp.2 ≤ score2 content pA
        have htpA : tp.1 ≠ A := by
          intro he
          apply hnd.1
          rw [← he]
          exact List.mem_map.mpr ⟨tp, htp, rfl⟩
        rw [hzero tp (List.mem_cons_of_mem _ htp) htpA]
        omega)
    · have hx0 : score2 content x.2 = 0 := hzero x (List.mem_cons_self x r) hxA
      have hstep : pickStep content b x = b := by
        unfold pickStep
        rw [if_neg (by omega)]
      rw [List.foldl_cons, hstep]
      have hmem2 : (A, pA) ∈ r := by
        rcases List.mem_cons.mp hmem with h1 | h1
        · exact absurd (by rw [← h1]) hxA
        · exact h1
      rw [List.map_cons, List.nodup_cons] at hnd
      exact ih b A pA hnd.2 hmem2 hb hpos
        (fun tp htp => hzero tp (List.mem_cons_of_mem _ htp))

/-- C7 (amended): if the text contains a strong identifier of profile `A`
and contains no pattern (identifier or structure element) of any *other*
profile, the classifier returns `A` with confidence strictly above 0.
(Without the no-other-pattern condition the claim fails: see
`unique_identifier_cex`.) -/
theorem unique_identifier_amended (content : List Char) (A : DocumentType)
    (pA : CategoryProfile) (pat : List Char)
    (hmem : (A, pA) ∈ profileList) (hpat : pat ∈ pA.identifiers)
    (hsub : hasSub pat content = true)
    (hothers : ∀ tp ∈ profileList, tp.1 ≠ A →
      ∀ q ∈ tp.2.identifiers ++ tp.2.structural, hasSub q content = false) :
    (classifyDocument content).type = A ∧ 0 < (classifyDocument content).confidence := by
  have hpos := score2_pos content pA pat hpat hsub
  have hfold := pick_unique_pos content profileList (DocumentType.others, 0, []) A pA
    (by decide) hmem rfl hpos
    (fun tp htp hne => score2_zero content tp.2 (hothers tp htp hne))
  constructor
  · show (profileList.foldl (pickStep content) (DocumentType.others, 0, [])).1 = A
    rw [hfold]
  · show 0 < min (((profileList.foldl (pickStep content)
      (DocumentType.others, 0, [])).2.1 : ℚ) / (maxPossible2 : ℚ)) 1
    rw [hfold]
    apply lt_min
    · apply div_pos
      · exact_mod_cast hpos
      · rw [show maxPossible2 = 16 from by decide]
        norm_num
    · norm_num

/-- Witness for C7 (amended): `"دراسة"` is an `others` identifier occurring
in no other profile's pattern lists. -/
theorem unique_identifier_witness :
    (classifyDocument (lit "دراسة")).type = DocumentType.others
    ∧ 0 < (classifyDocument (lit "دراسة")).confidence :=
  unique_identifier_amended (lit "دراسة") DocumentType.others othersProfile (lit "دراسة")
    (by decide) (by decide) (by decide) (by decide)

/-! ## Emergency fallback theorems (C3) -/

theorem lastOk_cons (c : Char) (r : List Char) (h : r ≠ []) :
    lastOk (c :: r) = lastOk r := by
  cases r with
  | nil => exact absurd rfl h
  | cons y t =>
    unfold lastOk
    rw [List.getLast?_cons_cons]

theorem lastOk_concat (xs : List Char) (c : Char) :
    lastOk (xs ++ [c]) = !isJsWS c := by
  unfold lastOk
  rw [List.getLast?_concat]

/-- The sentence separator `/[.!؟]\s+/` consumes at least one character and,
when the text's last character is not whitespace, never reaches the end of
the text (its match ends in a whitespace character). -/
theorem sentMatchLen_spec : ∀ (s : List Char) (k : Nat), sentMatchLen s = some k →
    1 ≤ k ∧ (lastOk s = true → k < s.length) := by
  intro s k h
  cases s with
  | nil => simp [sentMatchLen] at h
  | cons c r =>
    simp only [sentMatchLen] at h
    by_cases hc : (c == '.' || c == '!' || c == '؟') = true
    · rw [if_pos hc] at h
      by_cases h0 : 0 < (r.takeWhile isJsWS).length
      · rw [if_pos h0] at h
        have hk : k = 1 + (r.takeWhile isJsWS).length := (Option.some.inj h).symm
        constructor
        · omega
        · intro hlast
          rw [hk, List.length_cons]
          have hle : (r.takeWhile isJsWS).length ≤ r.length :=
            (List.takeWhile_prefix isJsWS).length_le
          rcases Nat.lt_or_ge (r.takeWhile isJsWS).length r.length with hlt | hge
          · omega
          · exfalso
            have heq : r.takeWhile isJsWS = r :=
              (List.takeWhile_prefix isJsWS).eq_of_length (by omega)
            have hrne : r ≠ [] := by
              intro h1
              rw [h1] at h0
              simp at h0
            have hwslast : isJsWS (r.getLast hrne) = true := by
              apply List.mem_takeWhile_imp
              rw [heq]
              exact List.getLast_mem hrne
            rw [lastOk_cons c r hrne] at hlast
            unfold lastOk at hlast
            rw [List.getLast?_eq_getLast r hrne] at hlast
            simp only [Bool.not_eq_true'] at hlast
            rw [hlast] at hwslast
            cases hwslast
      · rw [if_neg h0] at h
        cases h
    · rw [if_neg hc] at h
      cases h

/-- Splitting a text whose last character is not whitespace on the sentence
separator yields at least one piece whose last character is not whitespace
(the piece containing the text's final character). -/
theorem sepSplitGo_lastOk (matchLen : List Char → Option Nat)
    (hml : ∀ s k, matchLen s = some k → 1 ≤ k ∧ (lastOk s = true → k < s.length)) :
    ∀ (l : List Char) (skip : Nat) (acc : List Char),
      lastOk l = true → (skip ≠ 0 → skip < l.length) →
      ∃ p ∈ sepSplitGo matchLen skip acc l, lastOk p = true := by
  intro l
  induction l with
  | nil => intro skip acc h _; simp [lastOk] at h
  | cons c r ih =>
    intro skip acc hlast hskip
    cases skip with
    | succ s =>
      have hsl : s + 1 < (c :: r).length := hskip (by omega)
      have hrne : r ≠ [] := by
        intro h0
        rw [h0] at hsl
        simp at hsl
      have hlast2 : lastOk r = true := by rw [← lastOk_cons c r hrne]; exact hlast
      have hres : sepSplitGo matchLen (s + 1) acc (c :: r) = sepSplitGo matchLen s acc r := rfl
      rw [hres]
      refine ih s acc hlast2 (fun _ => ?_)
      rw [List.length_cons] at hsl
      omega
    | zero =>
      cases hm : matchLen (c :: r) with
      | some k =>
        obtain ⟨hk1, hklt⟩ := hml _ _ hm
        have hk : k < r.length + 1 := by
          have := hklt hlast
          rw [List.length_cons] at this
          exact this
        have hrne : r ≠ [] := by
          intro h0
          rw [h0] at hk
          simp at hk
          omega
        have hlast2 : lastOk r = true := by rw [← lastOk_cons c r hrne]; exact hlast
        obtain ⟨p, hp, hpl⟩ := ih (k - 1) [] hlast2 (fun _ => by
          have : 0 < r.length := List.length_pos.mpr hrne
          omega)
        refine ⟨p, ?_, hpl⟩
        rw [show sepSplitGo matchLen 0 acc (c :: r)
            = acc.reverse :: sepSplitGo matchLen (k - 1) [] r from by
          show (match matchLen (c :: r) with
            | some k => acc.reverse :: sepSplitGo matchLen (k - 1) [] r
            | none => sepSplitGo matchLen 0 (c :: acc) r) = _
          rw [hm]]
        exact List.mem_cons_of_mem _ hp
      | none =>
        have hres : sepSplitGo matchLen 0 acc (c :: r) = sepSplitGo matchLen 0 (c :: acc) r := by
          show (match matchLen (c :: r) with
            | some k => acc.reverse :: sepSplitGo matchLen (k - 1) [] r
            | none => sepSplitGo matchLen 0 (c :: acc) r) = _
          rw [hm]
        rw [hres]
        cases r with
        | nil =>
          refine ⟨(c :: acc).reverse, by simp [sepSplitGo], ?_⟩
          rw [List.reverse_cons, lastOk_concat]
          unfold lastOk at hlast
          simpa using hlast
        | cons y t =>
          have hlast2 : lastOk (y :: t) = true := by
            rw [← lastOk_cons c (y :: t) (by simp)]
            exact hlast
          exact ih 0 (c :: acc) hlast2 (fun h => absurd rfl h)

theorem trimEnd_ne_nil : ∀ (l : List Char), lastOk l = true → trimEnd l ≠ [] := by
  intro l
  induction l with
  | nil => intro h; simp [lastOk] at h
  | cons c rest ih =>
    intro h
    cases rest with
    | nil =>
      unfold lastOk at h
      simp only [List.getLast?_singleton, Bool.not_eq_true'] at h
      show (match trimEnd [] with
        | [] => if isJsWS c then [] else [c]
        | out => c :: out) ≠ []
      simp [trimEnd, h]
    | cons y t =>
      have h2 : lastOk (y :: t) = true := by
        rw [← lastOk_cons c (y :: t) (by simp)]
        exact h
      have h3 : trimEnd (y :: t) ≠ [] := ih h2
      show (match trimEnd (y :: t) with
        | [] => if isJsWS c then [] else [c]
        | out => c :: out) ≠ []
      cases h4 : trimEnd (y :: t) with
      | nil => exact absurd h4 h3
      | cons o os => simp

theorem trimEnd_lastOk : ∀ (l : List Char), trimEnd l ≠ [] → lastOk (trimEnd l) = true := by
  intro l
  induction l with
  | nil => intro h; exact absurd rfl h
  | cons c rest ih =>
    intro h
    show lastOk (match trimEnd rest with
      | [] => if isJsWS c then [] else [c]
      | out => c :: out) = true
    cases h4 : trimEnd rest with
    | nil =>
      by_cases hc : isJsWS c = true
      · exfalso
        apply h
        show (match trimEnd rest with
          | [] => if isJsWS c then [] else [c]
          | out => c :: out) = []
        rw [h4]
        simp [hc]
      · have hc2 : isJsWS c = false := by simpa using hc
        simp only [if_neg (by simp [hc2] : ¬ isJsWS c = true)]
        unfold lastOk
        simp [hc2]
    | cons o os =>
      have h5 : lastOk (trimEnd rest) = true := ih (by rw [h4]; simp)
      rw [h4] at h5
      rw [lastOk_cons c (o :: os) (by simp)]
      exact h5

theorem lastOk_dropWhileWS : ∀ (l : List Char), lastOk l = true →
    lastOk (l.dropWhile isJsWS) = true := by
  intro l
  induction l with
  | nil => intro h; simp [lastOk] at h
  | cons c r ih =>
    intro h
    rw [List.dropWhile_cons]
    cases hc : isJsWS c with
    | false =>
      simp only [Bool.false_eq_true, if_false]
      exact h
    | true =>
      simp only [if_true]
      cases r with
      | nil =>
        exfalso
        unfold lastOk at h
        simp only [List.getLast?_singleton, Bool.not_eq_true'] at h
        rw [h] at hc
        cases hc
      | cons y t =>
        apply ih
        rw [← lastOk_cons c (y :: t) (by simp)]
        exact h

theorem trimWS_ne_nil_of_lastOk (p : List Char) (h : lastOk p = true) :
    (trimWS p).isEmpty = false := by
  rw [List.isEmpty_eq_false]
  exact trimEnd_ne_nil _ (lastOk_dropWhileWS p h)

theorem lastOk_trimWS (l : List Char) (h : trimWS l ≠ []) : lastOk (trimWS l) = true :=
  trimEnd_lastOk _ h

/-- The emergency packer returns at least one chunk as soon as its input
contains a sentence with non-empty trimmed text (or it carries a non-empty
buffer or already-flushed chunks). -/
theorem emGo_ne_nil : ∀ (sents chunks : List (List Char)) (cur : List Char),
    (chunks ≠ [] ∨ cur ≠ [] ∨ ∃ p ∈ sents, (trimWS p).isEmpty = false) →
    emGo chunks cur sents ≠ [] := by
  intro sents
  induction sents with
  | nil =>
    intro chunks cur h
    show (if cur.isEmpty then chunks else chunks ++ [trimWS cur ++ ['.']]) ≠ []
    rcases h with h | h | h
    · by_cases hc : cur.isEmpty = true
      · rw [if_pos hc]; exact h
      · rw [if_neg hc]; simp
    · have hc : cur.isEmpty = false := by simpa [List.isEmpty_eq_false] using h
      rw [if_neg (by simp [hc])]
      simp
    · obtain ⟨p, hp, _⟩ := h
      simp at hp
  | cons s rest ih =>
    intro chunks cur h
    by_cases hs : (trimWS s).isEmpty = true
    · have hres : emGo chunks cur (s :: rest) = emGo chunks cur rest := by
        simp [emGo, hs]
      rw [hres]
      apply ih
      rcases h with h | h | ⟨p, hp, hpt⟩
      · exact Or.inl h
      · exact Or.inr (Or.inl h)
      · rcases List.mem_cons.mp hp with h1 | h1
        · rw [h1] at hpt
          rw [hpt] at hs
          cases hs
        · exact Or.inr (Or.inr ⟨p, h1, hpt⟩)
    · have hs2 : (trimWS s).isEmpty = false := by simpa using hs
      have hsne : trimWS s ≠ [] := List.isEmpty_eq_false.mp hs2
      by_cases hlim : 800 < jsLen cur + jsLen (trimWS s)
      · have hres : emGo chunks cur (s :: rest) =
            emGo (if cur.isEmpty then chunks else chunks ++ [trimWS cur ++ ['.']]) (trimWS s) rest := by
          simp [emGo, hs2, hlim]
        rw [hres]
        exact ih _ _ (Or.inr (Or.inl hsne))
      · have hres : emGo chunks cur (s :: rest) =
            emGo chunks (cur ++ (if cur.isEmpty then [] else ['.', ' ']) ++ trimWS s) rest := by
          simp [emGo, hs2, hlim]
        rw [hres]
        apply ih
        refine Or.inr (Or.inl ?_)
        intro h0
        have := congrArg List.length h0
        simp at this
        exact hsne this.2

/-- C3 (amended): for every input with non-empty trimmed text and a
category whose rules produce zero chunks, the emergency sentence fallback —
which runs *before* the 30-character post-filter, not after it — produces
at least one chunk, and `ruleBasedChunking` returns that fallback list
after the post-filter (which may therefore still empty the result, as
`chunking_empty_result_cex` shows). -/
theorem emergency_before_filter_amended (input : List Char) (cat : DocumentType)
    (hne : (trimWS input).isEmpty = false)
    (hcat : categoryChunks cat (trimWS input) = []) :
    emergencyChunks (trimWS input) ≠ []
    ∧ ruleBasedChunking input cat = (emergencyChunks (trimWS input)).filter validChunk := by
  have htext : trimWS input ≠ [] := List.isEmpty_eq_false.mp hne
  have hlast : lastOk (trimWS input) = true := lastOk_trimWS input htext
  obtain ⟨p, hp, hpl⟩ := sepSplitGo_lastOk sentMatchLen sentMatchLen_spec (trimWS input) 0 []
    hlast (fun h => absurd rfl h)
  have hpt : (trimWS p).isEmpty = false := trimWS_ne_nil_of_lastOk p hpl
  constructor
  · exact emGo_ne_nil _ [] [] (Or.inr (Or.inr ⟨p, hp, hpt⟩))
  · unfold ruleBasedChunking
    simp [hne, hcat]

/-- Witness for C3 (amended): input `"."` under category `laws`. -/
theorem emergency_before_filter_witness :
    emergencyChunks (trimWS (lit ".")) ≠ []
    ∧ ruleBasedChunking (lit ".") DocumentType.laws =
        (emergencyChunks (trimWS (lit "."))).filter validChunk :=
  emergency_before_filter_amended (lit ".") DocumentType.laws (by decide) (by decide)

/-! ## Royal-decree side decomposition (C5) -/

theorem lookSplitGo_flatten (m : List Char → Bool) :
    ∀ (l acc : List Char), (lookSplitGo m acc l).flatten = acc.reverse ++ l := by
  intro l
  induction l with
  | nil => intro acc; simp [lookSplitGo]
  | cons c rest ih =>
    intro acc
    by_cases hm : m (c :: rest) = true
    · rw [show lookSplitGo m acc (c :: rest) = acc.reverse :: lookSplitGo m [c] rest from by
        simp [lookSplitGo, hm]]
      rw [List.flatten_cons, ih [c]]
      simp
    · rw [show lookSplitGo m acc (c :: rest) = lookSplitGo m (c :: acc) rest from by
        simp [lookSplitGo, hm]]
      rw [ih (c :: acc)]
      simp

/-- A lookahead split partitions the string: the pieces concatenate back to it. -/
theorem lookSplit_flatten (m : List Char → Bool) (l : List Char) :
    (lookSplit m l).flatten = l := by
  cases l with
  | nil => simp [lookSplit]
  | cons c rest =>
    show (lookSplitGo m [c] rest).flatten = c :: rest
    rw [lookSplitGo_flatten]
    simp

theorem lookSplit_piece_sub (m : List Char → Bool) (l p : List Char)
    (hp : p ∈ lookSplit m l) : p <:+: l := by
  have h := List.infix_of_mem_flatten hp
  rwa [lookSplit_flatten] at h

theorem lookSplitGo_ne_nil (m : List Char → Bool) :
    ∀ (l acc : List Char), lookSplitGo m acc l ≠ [] := by
  intro l
  induction l with
  | nil => intro acc; simp [lookSplitGo]
  | cons c rest ih =>
    intro acc
    by_cases hm : m (c :: rest) = true
    · rw [show lookSplitGo m acc (c :: rest) = acc.reverse :: lookSplitGo m [c] rest from by
        simp [lookSplitGo, hm]]
      simp
    · rw [show lookSplitGo m acc (c :: rest) = lookSplitGo m (c :: acc) rest from by
        simp [lookSplitGo, hm]]
      exact ih (c :: acc)

theorem lookSplit_ne_nil (m : List Char → Bool) (l : List Char) : lookSplit m l ≠ [] := by
  cases l with
  | nil => simp [lookSplit]
  | cons c rest => exact lookSplitGo_ne_nil m rest [c]

theorem trimWS_sub (l : List Char) : trimWS l <:+: l :=
  ((trimEnd_pre _).isInfix).trans ((List.dropWhile_suffix isJsWS).isInfix)

theorem hasPre_append_self : ∀ (a t : List Char), hasPre a (a ++ t) = true := by
  intro a
  induction a with
  | nil => intro t; rfl
  | cons x xs ih =>
    intro t
    show (x == x && hasPre xs (xs ++ t)) = true
    rw [beq_self_eq_true, ih t]
    rfl

theorem hasSub_append_self : ∀ (a t : List Char), hasSub a (a ++ t) = true := by
  intro a t
  cases a with
  | nil =>
    cases t with
    | nil => rfl
    | cons c cs => simp [hasSub, hasPre]
  | cons x xs =>
    show (hasPre (x :: xs) (x :: (xs ++ t)) || hasSub (x :: xs) (xs ++ t)) = true
    have h1 := hasPre_append_self (x :: xs) t
    rw [List.cons_append] at h1
    rw [h1]
    rfl

theorem hasSub_prepend : ∀ (s b a : List Char), hasSub a b = true → hasSub a (s ++ b) = true := by
  intro s
  induction s with
  | nil => intro b a h; exact h
  | cons y ys ih =>
    intro b a h
    show (hasPre a (y :: (ys ++ b)) || hasSub a (ys ++ b)) = true
    rw [ih b a h]
    simp

/-- A contiguous substring passes the `includes` test. -/
theorem hasSub_of_within {a b : List Char} (h : a <:+: b) : hasSub a b = true := by
  obtain ⟨s, t, rfl⟩ := h
  rw [List.append_assoc]
  exact hasSub_prepend s _ a (hasSub_append_self a t)

theorem headD_mem {l : List (List Char)} (h : l ≠ []) : l.headD [] ∈ l := by
  cases l with
  | nil => exact absurd rfl h
  | cons x r => exact List.mem_cons_self x r

/-- Every chunk pushed by the decree phase is a contiguous substring of the
decree-side text it processes. -/
theorem decreePhase_piece_sub (m c : List Char) (hc : c ∈ decreePhase m) : c <:+: m := by
  unfold decreePhase at hc
  rcases List.mem_append.mp hc with h1 | h1
  · split_ifs at h1 with hcond
    · rw [List.mem_singleton] at h1
      subst h1
      exact (trimWS_sub _).trans
        (lookSplit_piece_sub decreeArtAt m _ (headD_mem (lookSplit_ne_nil decreeArtAt m)))
    · simp at h1
  · obtain ⟨a, ha, hfa⟩ := List.mem_filterMap.mp h1
    have hfa2 : (if (!(trimWS a).isEmpty && hasSub madaLit (trimWS a)) = true
        then some (trimWS a) else none) = some c := hfa
    split_ifs at hfa2 with hcond
    · have hca : trimWS a = c := Option.some.inj hfa2
      rw [← hca]
      exact (trimWS_sub _).trans
        (lookSplit_piece_sub decreeArtAt m a (List.mem_of_mem_tail ha))

/-- Every chunk pushed by the attached-instrument phase is a contiguous
substring of the instrument-side text it processes. -/
theorem agreementPhase_piece_sub (g c : List Char) (hc : c ∈ agreementPhase g) : c <:+: g := by
  unfold agreementPhase at hc
  split_ifs at hc with houter
  · rcases List.mem_append.mp hc with h1 | h1
    · split_ifs at h1 with hcond
      · rw [List.mem_singleton] at h1
        subst h1
        exact (trimWS_sub _).trans
          (lookSplit_piece_sub agreementArtAt g _ (headD_mem (lookSplit_ne_nil agreementArtAt g)))
      · simp at h1
    · obtain ⟨a, ha, hfa⟩ := List.mem_filterMap.mp h1
      have hfa2 : (if (!(trimWS a).isEmpty &&
          (hasSub madaLit (trimWS a) || decide (100 < jsLen (trimWS a)))) = true
          then some (trimWS a) else none) = some c := hfa
      split_ifs at hfa2 with hcond
      · have hca : trimWS a = c := Option.some.inj hfa2
        rw [← hca]
        exact (trimWS_sub _).trans
          (lookSplit_piece_sub agreementArtAt g a (List.mem_of_mem_tail ha))
  · simp at hc

/-- C5 (amended): when the attached-instrument marker occurs and the
`royal_decrees` category rules produce at least one chunk (so the emergency
fallback does not run), the pre-filter chunk list splits into decree-side
chunks — substrings of the text before the marker — followed by
instrument-side chunks — substrings of the text from the marker on — and
the returned list is that split filtered in order.  Without the
at-least-one-chunk condition the emergency fallback can emit a chunk
spanning both sides (`royal_decrees_spanning_cex`). -/
theorem royal_decrees_sides_amended (input : List Char) (p : Nat)
    (hsearch : searchAgreement (trimWS input) = some p)
    (hchunks : categoryChunks DocumentType.royal_decrees (trimWS input) ≠ []) :
    ∃ ds insChunks,
      royalChunks (trimWS input) = ds ++ insChunks
      ∧ (∀ c ∈ ds, hasSub c ((trimWS input).take p) = true)
      ∧ (∀ c ∈ insChunks, hasSub c ((trimWS input).drop p) = true)
      ∧ ruleBasedChunking input DocumentType.royal_decrees =
          ds.filter validChunk ++ insChunks.filter validChunk := by
  have htextne : trimWS input ≠ [] := by
    intro h0
    rw [h0] at hsearch
    simp [searchAgreement, searchIdxGo] at hsearch
  have hempty : (trimWS input).isEmpty = false := List.isEmpty_eq_false.mpr htextne
  have hcatempty : (categoryChunks DocumentType.royal_decrees (trimWS input)).isEmpty = false :=
    List.isEmpty_eq_false.mpr hchunks
  have hout : ruleBasedChunking input DocumentType.royal_decrees =
      (royalChunks (trimWS input)).filter validChunk := by
    unfold ruleBasedChunking
    simp only [hempty, Bool.false_eq_true, if_false, Bool.not_false]
    rw [show categoryChunks DocumentType.royal_decrees (trimWS input) =
      royalChunks (trimWS input) from rfl] at hcatempty ⊢
    simp [hcatempty]
  by_cases hp0 : 0 < p
  · have hsides : royalSides (trimWS input) =
        (trimWS ((trimWS input).take p), trimWS ((trimWS input).drop p)) := by
      unfold royalSides
      rw [hsearch]
      simp [hp0]
    refine ⟨decreePhase (trimWS ((trimWS input).take p)),
      agreementPhase (trimWS ((trimWS input).drop p)), ?_, ?_, ?_, ?_⟩
    · unfold royalChunks
      rw [hsides]
    · intro c hc
      exact hasSub_of_within ((decreePhase_piece_sub _ c hc).trans (trimWS_sub _))
    · intro c hc
      exact hasSub_of_within ((agreementPhase_piece_sub _ c hc).trans (trimWS_sub _))
    · rw [hout]
      rw [show royalChunks (trimWS input) = decreePhase (trimWS ((trimWS input).take p)) ++
        agreementPhase (trimWS ((trimWS input).drop p)) from by unfold royalChunks; rw [hsides]]
      exact List.filter_append _ _
  · have hp : p = 0 := by omega
    subst hp
    have hsides : royalSides (trimWS input) = (trimWS input, []) := by
      unfold royalSides
      rw [hsearch]
      simp
    refine ⟨[], decreePhase (trimWS input), ?_, by simp, ?_, ?_⟩
    · unfold royalChunks
      rw [hsides]
      show decreePhase (trimWS input) ++ agreementPhase [] = [] ++ decreePhase (trimWS input)
      rw [show agreementPhase [] = [] from rfl, List.append_nil, List.nil_append]
    · intro c hc
      rw [List.drop_zero]
      exact hasSub_of_within (decreePhase_piece_sub _ c hc)
    · rw [hout]
      rw [show royalChunks (trimWS input) = decreePhase (trimWS input) ++ agreementPhase [] from by
        unfold royalChunks; rw [hsides]]
      rw [show agreementPhase [] = [] from rfl, List.append_nil]
      rw [show (List.filter validChunk ([] : List (List Char))) = [] from rfl, List.nil_append]

set_option maxRecDepth 100000 in
/-- Witness for C5 (amended): a decree with a 120-letter preamble and an
attached-instrument marker at position 120. -/
theorem royal_decrees_sides_witness :
    ∃ ds insChunks,
      royalChunks (trimWS royalWitText) = ds ++ insChunks
      ∧ (∀ c ∈ ds, hasSub c ((trimWS royalWitText).take 120) = true)
      ∧ (∀ c ∈ insChunks, hasSub c ((trimWS royalWitText).drop 120) = true)
      ∧ ruleBasedChunking royalWitText DocumentType.royal_decrees =
          ds.filter validChunk ++ insChunks.filter validChunk :=
  royal_decrees_sides_amended royalWitText 120 (by decide) (by decide)
